import Mathlib

/-!
Verification of the backend memory/cache subsystem of this repository:
`backend/sqlite_rag.py`, `backend/conversation_memory.py`,
`backend/response_cache.py` and `backend/context_summarizer.py`.

The Python code is shallowly embedded:
* SQLite tables become Lean lists of row structures; `AUTOINCREMENT`
  columns are threaded as explicit counters.
* `datetime` values become natural-number instants (the code only ever
  compares them, and ISO-8601 text comparison is order-isomorphic to the
  instants themselves).
* JSON documents become the inductive `JVal`; `json.dumps(sort_keys=True)`
  becomes the recursive key-sorting function `canon`.  MD5 hashing of the
  serialized text is modelled as injective (hash of a document is the
  canonicalized document itself), and the dump/load round trip is the
  identity.
* SQL queries with `ORDER BY` are embedded with a stable insertion sort;
  where SQLite leaves the order of ties unspecified we fix the rowid as
  tie-break, which matches the backward index scans the engine performs
  on these schemas.
-/

/-- A JSON value, as produced by the R front end and consumed by
`json.dumps` / `json.loads` in the backend.  Objects keep the insertion
order of their keys, exactly like Python dictionaries. -/
inductive JVal where
  | jnull : JVal
  | jbool (b : Bool) : JVal
  | jnum (n : Int) : JVal
  | jstr (s : String) : JVal
  | jarr (elems : List JVal) : JVal
  | jobj (kvs : List (String × JVal)) : JVal

/-- Python truthiness of a JSON value (`if context_data:` and friends). -/
def JVal.truthy : JVal → Bool
  | .jnull => false
  | .jbool b => b
  | .jnum n => n != 0
  | .jstr s => !s.isEmpty
  | .jarr xs => !xs.isEmpty
  | .jobj kvs => !kvs.isEmpty

/-- Code-point comparison of characters, the primitive of Python string
comparison. -/
def charLt (a b : Char) : Bool := a.toNat < b.toNat

/-- Lexicographic code-point order on character lists (Python `<=` on
strings). -/
def strLeList : List Char → List Char → Bool
  | [], _ => true
  | _ :: _, [] => false
  | a :: as, b :: bs => charLt a b || (a == b && strLeList as bs)

/-- Python `<=` on strings. -/
def strLeB (a b : String) : Bool := strLeList a.data b.data

/-- Key order used by `json.dumps(..., sort_keys=True)`: lexicographic
order of the key strings. -/
def kvLe (a b : String × JVal) : Prop := strLeB a.1 b.1 = true

instance : DecidableRel kvLe := fun a b =>
  inferInstanceAs (Decidable (strLeB a.1 b.1 = true))

mutual

/-- `json.dumps(x, sort_keys=True)`, modelled at the level of the parse
tree: sort the keys of every object, at every nesting level.  Two
documents serialize to the same text if and only if they canonicalize to
the same tree, so MD5 content hashes are modelled as canonical trees. -/
def canon : JVal → JVal
  | .jnull => .jnull
  | .jbool b => .jbool b
  | .jnum n => .jnum n
  | .jstr s => .jstr s
  | .jarr xs => .jarr (canonList xs)
  | .jobj kvs => .jobj (List.insertionSort kvLe (canonKvs kvs))

def canonList : List JVal → List JVal
  | [] => []
  | x :: xs => canon x :: canonList xs

def canonKvs : List (String × JVal) → List (String × JVal)
  | [] => []
  | (k, v) :: kvs => (k, canon v) :: canonKvs kvs

end

mutual

/-- Structural equality of JSON documents as maps: objects are compared
by key lookup (ignoring the construction order of the keys), arrays
pointwise, scalars by value. -/
def structEqB : JVal → JVal → Bool
  | .jnull, .jnull => true
  | .jbool a, .jbool b => a == b
  | .jnum a, .jnum b => a == b
  | .jstr a, .jstr b => a == b
  | .jarr xs, .jarr ys => xs.length == ys.length && structEqList xs ys
  | .jobj kvs1, .jobj kvs2 => kvs1.length == kvs2.length && structEqKvs kvs1 kvs2
  | _, _ => false

def structEqList : List JVal → List JVal → Bool
  | [], _ => true
  | _ :: _, [] => false
  | x :: xs, y :: ys => structEqB x y && structEqList xs ys

def structEqKvs : List (String × JVal) → List (String × JVal) → Bool
  | [], _ => true
  | (k, v) :: rest, kvs2 =>
      (match kvs2.lookup k with
        | some v2 => structEqB v v2
        | none => false) && structEqKvs rest kvs2

end

mutual

/-- Well-formedness of a JSON document coming from Python: dictionary
keys are duplicate-free at every nesting level. -/
def jwf : JVal → Bool
  | .jnull => true
  | .jbool _ => true
  | .jnum _ => true
  | .jstr _ => true
  | .jarr xs => jwfList xs
  | .jobj kvs => decide (kvs.map Prod.fst).Nodup && jwfKvs kvs

def jwfList : List JVal → Bool
  | [] => true
  | x :: xs => jwf x && jwfList xs

def jwfKvs : List (String × JVal) → Bool
  | [] => true
  | (_, v) :: kvs => jwf v && jwfKvs kvs

end

/-- JSON string escaping as performed by `json.dumps` on the characters
the backend actually stores (quote, backslash and common control
characters; the `\uXXXX` escaping of other non-ASCII characters is not
modelled, no claim inspects such text). -/
def jsonEscapeChar (c : Char) : String :=
  if c = '"' then "\\\""
  else if c = '\\' then "\\\\"
  else if c = '\n' then "\\n"
  else if c = '\t' then "\\t"
  else if c = '\r' then "\\r"
  else String.mk [c]

/-- Left-to-right string concatenation (also the `context += ...`
accumulation of the Python formatting loop). -/
def concatStrings : List String → String
  | [] => ""
  | s :: rest => s ++ concatStrings rest

/-- A JSON string literal: `json.dumps` applied to a Python `str`. -/
def jsonQuote (s : String) : String :=
  "\"" ++ concatStrings (s.data.map jsonEscapeChar) ++ "\""

/-- Interleave a separator, as `", ".join(...)` does. -/
def joinSep (sep : String) : List String → String
  | [] => ""
  | [s] => s
  | s :: rest => s ++ sep ++ joinSep sep rest

mutual

/-- Compact `json.dumps` text of a document (default separators
`", "` and `": "`).  Applied after `canon` this is exactly
`json.dumps(x, sort_keys=True)`. -/
def dumps : JVal → String
  | .jnull => "null"
  | .jbool b => if b then "true" else "false"
  | .jnum n => toString n
  | .jstr s => jsonQuote s
  | .jarr xs => "[" ++ joinSep ", " (dumpsList xs) ++ "]"
  | .jobj kvs => "\x7b" ++ joinSep ", " (dumpsKvs kvs) ++ "\x7d"

def dumpsList : List JVal → List String
  | [] => []
  | x :: xs => dumps x :: dumpsList xs

def dumpsKvs : List (String × JVal) → List String
  | [] => []
  | (k, v) :: kvs => (jsonQuote k ++ ": " ++ dumps v) :: dumpsKvs kvs

end

/-- `lvl * 2` spaces, the indentation used by `json.dumps(..., indent=2)`. -/
def indentSpaces (lvl : Nat) : String :=
  String.mk (List.replicate (2 * lvl) ' ')

mutual

/-- `json.dumps(x, indent=2)` at nesting level `lvl`, as used by
`format_conversation_context` for the per-message context line. -/
def dumpsIndent : Nat → JVal → String
  | _, .jnull => "null"
  | _, .jbool b => if b then "true" else "false"
  | _, .jnum n => toString n
  | _, .jstr s => jsonQuote s
  | _, .jarr [] => "[]"
  | lvl, .jarr (x :: xs) =>
      "[\n" ++ joinSep ",\n" (dumpsIndentList (lvl + 1) (x :: xs)) ++
        "\n" ++ indentSpaces lvl ++ "]"
  | _, .jobj [] => "\x7b\x7d"
  | lvl, .jobj (kv :: kvs) =>
      "\x7b\n" ++ joinSep ",\n" (dumpsIndentKvs (lvl + 1) (kv :: kvs)) ++
        "\n" ++ indentSpaces lvl ++ "\x7d"

def dumpsIndentList : Nat → List JVal → List String
  | _, [] => []
  | lvl, x :: xs =>
      (indentSpaces lvl ++ dumpsIndent lvl x) :: dumpsIndentList lvl xs

def dumpsIndentKvs : Nat → List (String × JVal) → List String
  | _, [] => []
  | lvl, (k, v) :: kvs =>
      (indentSpaces lvl ++ jsonQuote k ++ ": " ++ dumpsIndent lvl v) ::
        dumpsIndentKvs lvl kvs

end

/-! ## `context_summarizer.py`: context fingerprints -/

/-- `d.get(k, default)` on a Python dictionary modelled as a `JVal`.
(The backend only ever calls `.get` on values that are dictionaries.) -/
def jGet (j : JVal) (k : String) (dflt : JVal) : JVal :=
  match j with
  | .jobj kvs => (kvs.lookup k).getD dflt
  | _ => dflt

/-- `d.keys()` of a dictionary value. -/
def jKeys : JVal → List String
  | .jobj kvs => kvs.map Prod.fst
  | _ => []

/-- A JSON array of strings, as sent by the R front end for
`console_history` and `packages`. -/
def jStrList : JVal → List String
  | .jarr xs => xs.map (fun x => match x with | .jstr s => s | _ => "")
  | _ => []

/-- Python `len` on the JSON values it is applied to. -/
def pyLen : JVal → Nat
  | .jstr s => s.length
  | .jarr xs => xs.length
  | .jobj kvs => kvs.length
  | _ => 0

/-- Python `sorted` on a list of strings. -/
def sortedStrings (xs : List String) : List String :=
  List.insertionSort (fun a b => strLeB a b = true) xs

/-- Python `l[-n:]`. -/
def lastN (n : Nat) (l : List α) : List α := l.drop (l.length - n)

/-- The result of `ContextSummarizer.get_context_fingerprint`: either the
literal string `"empty"` (returned for a falsy `context_data`, and not
valid JSON) or the JSON text of the four fingerprint fields.  The
JSON-text round trip through `json.dumps`/`json.loads` is modelled as
the identity, so the fingerprint is kept in structured form. -/
inductive Fingerprint where
  | emptyfp : Fingerprint
  | fp (workspace_keys recent_commands active_packages : List String)
      (document_length : Nat) : Fingerprint
deriving DecidableEq

/-- `ContextSummarizer.get_context_fingerprint` (context_summarizer.py,
lines 292-305). -/
def get_context_fingerprint (context_data : JVal) : Fingerprint :=
  if !context_data.truthy then .emptyfp
  else
    .fp
      (sortedStrings (jKeys (jGet context_data "workspace_objects" (.jobj []))))
      (lastN 5 (jStrList (jGet context_data "console_history" (.jarr []))))
      ((jStrList (jGet (jGet context_data "environment_info" (.jobj []))
          "packages" (.jarr []))).take 10)
      (pyLen (jGet context_data "document_content" (.jstr "")))

/-! ## `response_cache.py`: SmartResponseCache -/

/-- One token of the regular expressions used by the cacheability
filter: a literal word or `\s+`. -/
inductive PTok where
  | lit (s : String) : PTok
  | ws : PTok

/-- `self.cacheable_patterns` (response_cache.py, lines 18-32), in
source order. -/
def cacheable_patterns : List (List PTok) :=
  [[.lit "how", .ws, .lit "to", .ws],
   [.lit "what", .ws, .lit "is", .ws],
   [.lit "explain", .ws],
   [.lit "create", .ws, .lit "a", .ws],
   [.lit "make", .ws, .lit "a", .ws],
   [.lit "generate", .ws, .lit "a", .ws],
   [.lit "plot", .ws],
   [.lit "visualize", .ws],
   [.lit "show", .ws, .lit "me", .ws, .lit "how", .ws, .lit "to", .ws],
   [.lit "can", .ws, .lit "you", .ws, .lit "explain", .ws],
   [.lit "what", .ws, .lit "does", .ws],
   [.lit "define", .ws],
   [.lit "describe", .ws]]

/-- `self.non_cacheable_patterns` (response_cache.py, lines 35-48), in
source order. -/
def non_cacheable_patterns : List (List PTok) :=
  [[.lit "what", .ws, .lit "data", .ws, .lit "do", .ws, .lit "i", .ws, .lit "have"],
   [.lit "what", .ws, .lit "is", .ws, .lit "wrong", .ws, .lit "with"],
   [.lit "error", .ws],
   [.lit "debug", .ws],
   [.lit "fix", .ws],
   [.lit "problem", .ws, .lit "with"],
   [.lit "issue", .ws, .lit "with"],
   [.lit "what", .ws, .lit "does", .ws, .lit "this", .ws, .lit "output", .ws, .lit "mean"],
   [.lit "why", .ws, .lit "is", .ws, .lit "this", .ws, .lit "happening"],
   [.lit "what", .ws, .lit "went", .ws, .lit "wrong"],
   [.lit "troubleshoot"],
   [.lit "diagnose"]]

/-- Match a token list at the start of the character list.  In these
patterns `\s+` is always followed by a literal starting with a
non-whitespace character (or ends the pattern), so the greedy match is
equivalent to the backtracking regex semantics. -/
def matchToks : List PTok → List Char → Bool
  | [], _ => true
  | .lit s :: rest, cs => s.data.isPrefixOf cs && matchToks rest (cs.drop s.length)
  | .ws :: _, [] => false
  | .ws :: rest, c :: cs => c.isWhitespace && matchToks rest (cs.dropWhile Char.isWhitespace)

/-- `re.search`: the pattern matches at some position. -/
def reSearch (p : List PTok) : List Char → Bool
  | [] => matchToks p []
  | c :: cs => matchToks p (c :: cs) || reSearch p cs

/-- Python `str.lower` (the prompts are ASCII). -/
def pyLower (s : String) : String := String.mk (s.data.map Char.toLower)

/-- Python `str.strip`. -/
def pyStrip (s : String) : String :=
  String.mk (((s.data.dropWhile Char.isWhitespace).reverse.dropWhile Char.isWhitespace).reverse)

/-- `SmartResponseCache.is_cacheable_question` (response_cache.py, lines
50-65): the deny list is checked first and short-circuits to `false`;
then the allow list; the default is `false`. -/
def is_cacheable_question (prompt : String) : Bool :=
  let prompt_lower := (pyLower prompt).data
  if non_cacheable_patterns.any (fun p => reSearch p prompt_lower) then false
  else if cacheable_patterns.any (fun p => reSearch p prompt_lower) then true
  else false

/-- `SmartResponseCache._check_context_similarity` (response_cache.py,
lines 128-162).  Python sets are modelled as deduplicated lists (only
their cardinalities and emptiness are consumed), and floats as exact
rationals; every quantity the claims compare (`0.0`, `1.0` and the
threshold case `4/5` against the literal `0.8`) is computed exactly by
IEEE doubles as well, so the comparisons agree with the float
semantics.  A set is truthy exactly when the underlying list is
non-empty, so the presence guards test the lists.  Parsing the literal
string `"empty"` raises in Python and lands in the `except` branch
returning `0.0`; that is the `emptyfp` case. -/
def setCard (l : List String) : Nat := l.dedup.length

/-- `len(set(a) & set(b))`: the number of distinct elements of `a` that
also occur in `b`. -/
def interCard (a b : List String) : Nat :=
  (a.dedup.filter (fun x => b.contains x)).length

/-- `len(set(a) | set(b))`. -/
def unionCard (a b : List String) : Nat := setCard (a ++ b)

/-- The Jaccard index of two lists viewed as sets. -/
def jaccardIndex (a b : List String) : ℚ :=
  (interCard a b : ℚ) / (unionCard a b : ℚ)

def check_context_similarity (cached current : Fingerprint) : ℚ :=
  match cached, current with
  | .fp wk1 rc1 ap1 _, .fp wk2 rc2 ap2 _ =>
    let sims1 : List ℚ :=
      if !wk1.isEmpty || !wk2.isEmpty then
        [if unionCard wk1 wk2 != 0 then jaccardIndex wk1 wk2 else 1]
      else []
    let sims2 : List ℚ :=
      if !rc1.isEmpty || !rc2.isEmpty then
        [if unionCard rc1 rc2 != 0 then jaccardIndex rc1 rc2 else 1]
      else []
    let sims3 : List ℚ :=
      if !ap1.isEmpty || !ap2.isEmpty then
        [if unionCard ap1 ap2 != 0 then jaccardIndex ap1 ap2 else 1]
      else []
    let sims := sims1 ++ sims2 ++ sims3
    if !sims.isEmpty then sims.sum / (sims.length : ℚ) else 0
  | _, _ => 0

/-- The cache key: MD5 of the canonical JSON of the normalized prompt
and the fingerprint text, modelled as the (prompt, fingerprint) pair
itself (the serialization composed with MD5 is treated as injective). -/
structure CacheKey where
  prompt : String
  context_fingerprint : Fingerprint
deriving DecidableEq

/-- `SmartResponseCache.get_cache_key` (response_cache.py, lines 67-78). -/
def get_cache_key (prompt : String) (context_data : JVal) : CacheKey :=
  ⟨pyStrip (pyLower prompt), get_context_fingerprint context_data⟩

/-- One value of `self.cache` (response_cache.py, lines 117-122). -/
structure CacheEntry where
  response : String
  timestamp : Int
  context_fingerprint : Fingerprint
  prompt : String

/-- The dictionary returned by a cache hit (response_cache.py, lines
100-105). -/
structure CacheHit where
  response : String
  cached : Bool
  context_similarity : ℚ
  cache_age : ℚ

/-- `self.cache`: a Python dict, i.e. an insertion-ordered association
list with unique keys. -/
abbrev Cache := List (CacheKey × CacheEntry)

/-- `max_cache_size` default (response_cache.py, line 11). -/
def max_cache_size : Nat := 500

/-- `cache_ttl = timedelta(hours=6)`, in seconds; instants are `Int`
seconds. -/
def cache_ttl : Int := 21600

/-- Assignment `self.cache[key] = entry` on a Python dict: replace in
place if the key is present, else append. -/
def dictInsert (cache : Cache) (k : CacheKey) (v : CacheEntry) : Cache :=
  if (cache.lookup k).isSome then
    cache.map (fun p => if p.1 = k then (k, v) else p)
  else cache ++ [(k, v)]

/-- `SmartResponseCache._cleanup_old_entries` (response_cache.py, lines
164-183). -/
def cleanup_old_entries (cache : Cache) (now : Int) : Cache :=
  let c1 := cache.filter (fun p => !(now - p.2.timestamp > cache_ttl))
  if c1.length > max_cache_size then
    let sorted_entries := List.insertionSort (fun a b : CacheKey × CacheEntry =>
      a.2.timestamp ≤ b.2.timestamp) c1
    let removed := (sorted_entries.take (c1.length - max_cache_size)).map Prod.fst
    c1.filter (fun p => !(removed.contains p.1))
  else c1

/-- `SmartResponseCache.get` (response_cache.py, lines 80-107). -/
def cache_get (cache : Cache) (now : Int) (prompt : String) (context_data : JVal) :
    Option CacheHit :=
  if !is_cacheable_question prompt then none
  else
    match cache.lookup (get_cache_key prompt context_data) with
    | none => none
    | some entry =>
      if now - entry.timestamp < cache_ttl then
        let context_similarity :=
          check_context_similarity entry.context_fingerprint
            (get_context_fingerprint context_data)
        if context_similarity > 4 / 5 then
          some ⟨entry.response, true, context_similarity,
            ((now - entry.timestamp : Int) : ℚ) / 3600⟩
        else none
      else none

/-- `SmartResponseCache.set` (response_cache.py, lines 109-126). -/
def cache_set (cache : Cache) (now : Int) (prompt : String) (context_data : JVal)
    (response : String) : Cache :=
  if !is_cacheable_question prompt then cache
  else
    let c1 := dictInsert cache (get_cache_key prompt context_data)
      ⟨response, now, get_context_fingerprint context_data, pyStrip (pyLower prompt)⟩
    if c1.length > max_cache_size then cleanup_old_entries c1 now else c1

/-! ## `conversation_memory.py`: ConversationMemory

The Python `sqlite3` driver never executes `PRAGMA foreign_keys = ON`,
and SQLite leaves foreign-key enforcement off by default, so the
`FOREIGN KEY (conversation_id) REFERENCES conversations` clause declared
by `_init_database` is inert: inserts into `messages` succeed even when
no parent conversation row exists.  The embedding reflects the engine as
actually configured. -/

/-- `self.max_conversations_per_user` (conversation_memory.py, line 14). -/
def max_conversations_per_user : Nat := 10

/-- A row of the `conversations` table. -/
structure ConvRow where
  rowid : Nat
  access_code : String
  conversation_id : String
  title : String
  created_at : Nat
  last_updated : Nat
  message_count : Nat
  is_active : Bool
  deriving DecidableEq

/-- A row of the `messages` table.  `context_data` holds the parsed form
of the stored JSON text (`json.dumps` at insert and `json.loads` at read
round-trip to the identity); `None` is stored when `add_message` was
given a falsy `context_data`. -/
structure MsgRow where
  rowid : Nat
  conversation_id : String
  role : String
  content : String
  timestamp : Nat
  context_data : Option JVal
  context_type : String

/-- The conversation-memory database: both tables plus the
`AUTOINCREMENT` cursors. -/
structure ConvDB where
  conversations : List ConvRow
  messages : List MsgRow
  nextConvRowid : Nat
  nextMsgRowid : Nat

/-- `ORDER BY last_updated ASC` with the rowid as tie-break. -/
def convOldFirst (a b : ConvRow) : Prop :=
  a.last_updated < b.last_updated ∨
    (a.last_updated = b.last_updated ∧ a.rowid ≤ b.rowid)

instance : DecidableRel convOldFirst := fun a b => by
  unfold convOldFirst
  exact inferInstance

instance : IsTotal ConvRow convOldFirst :=
  ⟨fun a b => by unfold convOldFirst; omega⟩

instance : IsTrans ConvRow convOldFirst :=
  ⟨fun a b c h1 h2 => by
    unfold convOldFirst at h1 h2 ⊢
    omega⟩

/-- The active conversations of one owner, in table order: the rows
satisfying `access_code = ? AND is_active = 1`. -/
def activeConvs (db : ConvDB) (access_code : String) : List ConvRow :=
  db.conversations.filter (fun c => c.access_code == access_code && c.is_active)

/-- `ConversationMemory._enforce_memory_limits` (conversation_memory.py,
lines 85-123): if the owner has more than `max_conversations_per_user`
active conversations, pick the oldest ones by `last_updated`, delete
their messages and mark the conversations inactive. -/
def enforce_memory_limits (db : ConvDB) (access_code : String) : ConvDB :=
  let actives := activeConvs db access_code
  if actives.length > max_conversations_per_user then
    let old_conversations :=
      ((List.insertionSort convOldFirst actives).take
        (actives.length - max_conversations_per_user)).map
        (fun c => c.conversation_id)
    { db with
      messages := db.messages.filter
        (fun m => !(old_conversations.contains m.conversation_id)),
      conversations := db.conversations.map (fun c =>
        if old_conversations.contains c.conversation_id then
          { c with is_active := false }
        else c) }
  else db

/-- `ConversationMemory.start_conversation` (conversation_memory.py,
lines 125-145).  The generated MD5 conversation id is passed in
explicitly; if it collides with an existing row the `UNIQUE` constraint
raises, the transaction rolls back and the method returns `None`. -/
def start_conversation (db : ConvDB) (access_code : String) (title : Option String)
    (now : Nat) (conversation_id : String) : Option String × ConvDB :=
  if db.conversations.any (fun c => c.conversation_id == conversation_id) then
    (none, db)
  else
    let row : ConvRow :=
      ⟨db.nextConvRowid, access_code, conversation_id,
        title.getD "New Conversation", now, now, 0, true⟩
    let db1 := { db with
      conversations := db.conversations ++ [row],
      nextConvRowid := db.nextConvRowid + 1 }
    (some conversation_id, enforce_memory_limits db1 access_code)

/-- The `conversations` row inserted by `start_conversation` (with the
default title) before enforcement runs. -/
def startRow (db : ConvDB) (access_code cid : String) (now : Nat) : ConvRow :=
  ⟨db.nextConvRowid, access_code, cid, "New Conversation", now, now, 0, true⟩

/-- The database state right after `start_conversation` inserts its row,
before `_enforce_memory_limits` runs. -/
def startInserted (db : ConvDB) (access_code cid : String) (now : Nat) : ConvDB :=
  { db with
    conversations := db.conversations ++ [startRow db access_code cid now],
    nextConvRowid := db.nextConvRowid + 1 }

/-- `ConversationMemory.add_message` (conversation_memory.py, lines
147-177).  With foreign keys unenforced (see above) the insert succeeds
for any `conversation_id`; the metadata update touches whatever
conversation rows match (possibly none); no exception is raised and the
method returns `True`. -/
def add_message (db : ConvDB) (conversation_id role content : String)
    (context_data : Option JVal) (context_type : String) (now : Nat) :
    Bool × ConvDB :=
  let stored := match context_data with
    | some j => if j.truthy then some j else none
    | none => none
  let msg : MsgRow :=
    ⟨db.nextMsgRowid, conversation_id, role, content, now, stored, context_type⟩
  (true,
    { db with
      messages := db.messages ++ [msg],
      nextMsgRowid := db.nextMsgRowid + 1,
      conversations := db.conversations.map (fun c =>
        if c.conversation_id == conversation_id then
          { c with message_count := c.message_count + 1, last_updated := now }
        else c) })

/-- `ORDER BY timestamp ASC` on messages with the rowid as tie-break. -/
def msgOldFirst (a b : MsgRow) : Prop :=
  a.timestamp < b.timestamp ∨ (a.timestamp = b.timestamp ∧ a.rowid ≤ b.rowid)

instance : DecidableRel msgOldFirst := fun a b => by
  unfold msgOldFirst
  exact inferInstance

instance : IsTotal MsgRow msgOldFirst :=
  ⟨fun a b => by unfold msgOldFirst; omega⟩

instance : IsTrans MsgRow msgOldFirst :=
  ⟨fun a b c h1 h2 => by
    unfold msgOldFirst at h1 h2 ⊢
    omega⟩

/-- The dictionary built for each row of the history query
(conversation_memory.py, lines 194-200). -/
structure HistEntry where
  role : String
  content : String
  context_data : Option JVal
  context_type : String
  timestamp : Nat

/-- Row-to-dictionary conversion for the history query. -/
def renderMsg (m : MsgRow) : HistEntry :=
  ⟨m.role, m.content, m.context_data, m.context_type, m.timestamp⟩

/-- `SELECT ... FROM messages WHERE conversation_id = ?`, in table
order. -/
def convMessages (db : ConvDB) (conversation_id : String) : List MsgRow :=
  db.messages.filter (fun m => m.conversation_id == conversation_id)

/-- `ConversationMemory.get_conversation_history` (conversation_memory.py,
lines 179-207): query newest-first (`ORDER BY timestamp DESC LIMIT ?`,
embedded as the reverse of the stable ascending sort, which is what the
backward scan of `idx_messages_timestamp` produces), then
`list(reversed(...))`. -/
def get_conversation_history (db : ConvDB) (conversation_id : String)
    (max_messages : Nat) : List HistEntry :=
  (((List.insertionSort msgOldFirst (convMessages db conversation_id)).reverse.take
      max_messages).map renderMsg).reverse

/-- The specification reading of the history operation: the last
`max_messages` messages of the full timestamp-ordered (chronological)
message sequence of the conversation, listed oldest-first.  Stated
separately from `get_conversation_history` so that the refinement
between the two can be proved. -/
def history_spec (db : ConvDB) (conversation_id : String) (max_messages : Nat) :
    List HistEntry :=
  ((List.insertionSort msgOldFirst (convMessages db conversation_id)).drop
    ((List.insertionSort msgOldFirst (convMessages db conversation_id)).length -
      max_messages)).map renderMsg

/-- Python `str.title` on the ASCII role names: a letter is uppercased
after a non-letter and lowercased after a letter. -/
def pyTitleGo : Bool → List Char → List Char
  | _, [] => []
  | prevAlpha, c :: cs =>
    (if c.isAlpha then (if prevAlpha then c.toLower else c.toUpper) else c) ::
      pyTitleGo c.isAlpha cs

/-- Python `str.title`. -/
def pyTitle (s : String) : String := String.mk (pyTitleGo false s.data)

/-- The user-turn marker string literal of conversation_memory.py, line
299 (the file stores the four code points U+00F0 U+0178 U+2018 U+00A4). -/
def userEmoji : String := "\u00F0\u0178\u2018\u00A4"

/-- The assistant-turn marker string literal of conversation_memory.py,
line 299 (code points U+00F0 U+0178 U+00A4 U+2013). -/
def botEmoji : String := "\u00F0\u0178\u00A4\u2013"

/-- Python `enumerate(l, n)`. -/
def numberFrom (n : Nat) : List α → List (Nat × α)
  | [] => []
  | a :: l => (n, a) :: numberFrom (n + 1) l

/-- The optional `Context: ...` line of a formatted message
(conversation_memory.py, lines 303-304). -/
def contextLine : Option JVal → String
  | some j => "Context: " ++ (dumpsIndent 0 j).take 200 ++ "...\n"
  | none => ""

/-- The labelled line of one formatted message: the role marker, the
title-cased role and the 1-based turn number
(conversation_memory.py, line 300). -/
def messageLine (i : Nat) (msg : HistEntry) : String :=
  (if msg.role == "user" then userEmoji else botEmoji) ++ " " ++ pyTitle msg.role ++
    " (Message " ++ toString i ++ "):"

/-- One message block of `format_conversation_context`
(conversation_memory.py, lines 298-304). -/
def messageBlock (i : Nat) (msg : HistEntry) : String :=
  "\n" ++ messageLine i msg ++ "\n" ++ msg.content ++ "\n" ++
    contextLine msg.context_data

/-- `ConversationMemory.format_conversation_context`
(conversation_memory.py, lines 288-310). -/
def format_conversation_context (db : ConvDB) (conversation_id : String)
    (max_messages : Nat) : String :=
  let messages := get_conversation_history db conversation_id max_messages
  if messages.isEmpty then ""
  else
    "\n\n=== CONVERSATION HISTORY ===\n" ++
      concatStrings ((numberFrom 1 messages).map (fun p => messageBlock p.1 p.2))

/-- Well-formedness of the conversations table: the `UNIQUE` constraint
on `conversation_id` holds. -/
def ConvWF (db : ConvDB) : Prop :=
  (db.conversations.map (fun c => c.conversation_id)).Nodup

/-! ## `sqlite_rag.py`: SQLiteRAG -/

/-- `self.max_contexts_per_user` (sqlite_rag.py, line 15). -/
def max_contexts_per_user : Nat := 20

/-- `self.max_total_contexts` (sqlite_rag.py, line 16). -/
def max_total_contexts : Nat := 200

/-- A row of the `contexts` table.  The two fields of the stored
`metadata` JSON are kept structurally. -/
structure CtxRow where
  id : Nat
  access_code : String
  context_type : String
  content_hash : String
  content : String
  meta_is_summarized : Bool
  meta_summary_type : String
  timestamp : Nat

/-- The RAG database: the `contexts` table plus the `AUTOINCREMENT`
cursor. -/
structure RagDB where
  rows : List CtxRow
  nextId : Nat

/-- `ORDER BY timestamp ASC` on contexts with the id as tie-break. -/
def ctxOldFirst (a b : CtxRow) : Prop :=
  a.timestamp < b.timestamp ∨ (a.timestamp = b.timestamp ∧ a.id ≤ b.id)

instance : DecidableRel ctxOldFirst := fun a b => by
  unfold ctxOldFirst
  exact inferInstance

instance : IsTotal CtxRow ctxOldFirst :=
  ⟨fun a b => by unfold ctxOldFirst; omega⟩

instance : IsTrans CtxRow ctxOldFirst :=
  ⟨fun a b c h1 h2 => by
    unfold ctxOldFirst at h1 h2 ⊢
    omega⟩

/-- `SQLiteRAG._generate_content_hash` (sqlite_rag.py, lines 74-76):
MD5 of the serialized content, modelled as the serialized content
itself (the hash is treated as injective). -/
def generate_content_hash (content : String) : String := content

/-- The first pass of `SQLiteRAG._enforce_memory_limits` (sqlite_rag.py,
lines 101-112): if the total row count exceeds `max_total_contexts`,
delete the globally oldest rows (by timestamp) down to the limit. -/
def rag_enforce_total (db : RagDB) : RagDB :=
  if db.rows.length > max_total_contexts then
    { db with rows := db.rows.filter (fun r =>
        !((((List.insertionSort ctxOldFirst db.rows).take
          (db.rows.length - max_total_contexts)).map (fun r => r.id)).contains r.id)) }
  else db

/-- The second pass of `SQLiteRAG._enforce_memory_limits` (sqlite_rag.py,
lines 114-130): if the calling owner's row count exceeds
`max_contexts_per_user`, delete that owner's oldest rows down to the
limit. -/
def rag_enforce_user (db : RagDB) (access_code : String) : RagDB :=
  if (db.rows.filter (fun r => r.access_code == access_code)).length >
      max_contexts_per_user then
    { db with rows := db.rows.filter (fun r =>
        !((((List.insertionSort ctxOldFirst
            (db.rows.filter (fun r => r.access_code == access_code))).take
          ((db.rows.filter (fun r => r.access_code == access_code)).length -
            max_contexts_per_user)).map (fun r => r.id)).contains r.id)) }
  else db

/-- `SQLiteRAG._enforce_memory_limits` (sqlite_rag.py, lines 97-135):
the global pass followed by the per-owner pass. -/
def rag_enforce_memory_limits (db : RagDB) (access_code : String) : RagDB :=
  rag_enforce_user (rag_enforce_total db) access_code

/-- The row inserted by `store_context` for a fresh content hash
(sqlite_rag.py, lines 163-183). -/
def mkStoredRow (id : Nat) (access_code : String) (context_data : JVal)
    (context_type : String) (now : Nat) : CtxRow :=
  let content := dumps (canon context_data)
  let is_sum := match context_data with
    | .jobj kvs => (kvs.lookup "workspace_summary").isSome
    | _ => false
  ⟨id, access_code, context_type, generate_content_hash content, content, is_sum,
    if is_sum then "environment_summary" else "full_context", now⟩

/-- `SQLiteRAG.store_context` (sqlite_rag.py, lines 137-192): serialize
with sorted keys, hash, dedupe on the hash (only refreshing the
timestamp), otherwise enforce the memory limits and insert.  The Python
method returns `str(id)`; the id is kept numeric here. -/
def store_context (db : RagDB) (access_code : String) (context_data : JVal)
    (context_type : String) (now : Nat) : Option Nat × RagDB :=
  let content_hash := generate_content_hash (dumps (canon context_data))
  match db.rows.find? (fun r => r.content_hash == content_hash) with
  | some existing =>
      (some existing.id,
        { db with rows := db.rows.map (fun r =>
            if r.content_hash == content_hash then { r with timestamp := now } else r) })
  | none =>
      let db1 := rag_enforce_memory_limits db access_code
      (some db1.nextId,
        { rows := db1.rows ++ [mkStoredRow db1.nextId access_code context_data context_type now],
          nextId := db1.nextId + 1 })

/-- A sequence of `store_context` calls, each with its own owner,
payload and instant. -/
def storeMany (db : RagDB) (calls : List (String × JVal × Nat)) : RagDB :=
  calls.foldl (fun d c => (store_context d c.1 c.2.1 "general" c.2.2).2) db

/-- The empty RAG database. -/
def emptyRag : RagDB := ⟨[], 1⟩

/-- A string of `i` letters, used to build pairwise distinct owners and
payloads for the capacity scenario. -/
def aString (i : Nat) : String := String.mk (List.replicate i 'a')

/-- The i-th store call of the capacity scenario: a fresh owner, a fresh
string payload and strictly increasing instants. -/
def ragCall (i : Nat) : String × JVal × Nat :=
  (aString i, .jstr (aString i), i)

/-- The rows `storeMany` appends when every call is fresh, ids counting
up from `startId`. -/
def expectedRows (startId : Nat) : List (String × JVal × Nat) → List CtxRow
  | [] => []
  | c :: cs => mkStoredRow startId c.1 c.2.1 "general" c.2.2 :: expectedRows (startId + 1) cs

/-- The 201 pairwise distinct store calls of the capacity scenario. -/
def calls201 : List (String × JVal × Nat) := (List.range 201).map ragCall

/-- The store after the 201 calls of the capacity scenario. -/
def ragFull : RagDB := storeMany emptyRag calls201

/-- The 202nd distinct store call of the capacity scenario. -/
def call202 : String × JVal × Nat := ragCall 201

/-- Rows of one owner (`WHERE access_code = ?`). -/
def ownerRows (db : RagDB) (access_code : String) : List CtxRow :=
  db.rows.filter (fun r => r.access_code == access_code)

/-- Well-formedness of the contexts table: primary keys are unique. -/
def RagWF (db : RagDB) : Prop := (db.rows.map (fun r => r.id)).Nodup

/-! ## Concrete scenario inputs used by the theorems below -/

/-- An empty conversation-memory database. -/
def emptyConvDB : ConvDB := ⟨[], [], 1, 1⟩

/-- A one-conversation, one-message database. -/
def convDB1 : ConvDB :=
  ⟨[⟨1, "owner", "c1", "T", 0, 0, 1, true⟩],
    [⟨1, "c1", "user", "hi", 5, none, "general"⟩], 2, 2⟩

/-- The i-th of ten active conversations of one owner, with strictly
increasing `last_updated`. -/
def convRow10 (i : Nat) : ConvRow :=
  ⟨i + 1, "owner", "c" ++ aString (i + 1), "New Conversation", i, i, 0, true⟩

/-- An owner at the per-owner cap: ten active conversations, the oldest
one holding one message. -/
def convDB10 : ConvDB :=
  ⟨(List.range 10).map convRow10,
    [⟨1, "c" ++ aString 1, "user", "hello", 0, none, "general"⟩], 11, 2⟩

/-- A read-time context whose workspace holds the objects a, b, c, d. -/
def ctx4 : JVal :=
  .jobj [("workspace_objects",
    .jobj [("a", .jnull), ("b", .jnull), ("c", .jnull), ("d", .jnull)])]

/-- A cache holding, under the key of prompt `"how to plot"` and the
fingerprint of `ctx4`, an entry written against a workspace that held
one extra object `e`: its similarity to `ctx4` is exactly `0.8`. -/
def cacheBoundary : Cache :=
  [(⟨"how to plot", .fp ["a", "b", "c", "d"] [] [] 0⟩,
    ⟨"resp", 0, .fp ["a", "b", "c", "d", "e"] [] [] 0, "how to plot"⟩)]

/-- The same cache with the entry written against the identical
fingerprint (similarity `1.0`). -/
def cacheExact : Cache :=
  [(⟨"how to plot", .fp ["a", "b", "c", "d"] [] [] 0⟩,
    ⟨"resp", 0, .fp ["a", "b", "c", "d"] [] [] 0, "how to plot"⟩)]

/-! ## Theorems -/

/-- C1: the claim states that `add_message` on a missing conversation
returns false and leaves both tables unchanged.  The code as shipped
does the opposite: `sqlite3` never enables foreign-key enforcement, so
the insert succeeds, an orphan message row becomes visible, and the
method returns `True`.  This theorem evaluates the embedded code at the
failing input (an empty database and the missing conversation id). -/
theorem add_message_missing_conversation_inserts_orphan :
    (add_message emptyConvDB "missing" "user" "hello" none "general" 100).1 = true ∧
    ((add_message emptyConvDB "missing" "user" "hello" none "general" 100).2).messages =
      [⟨1, "missing", "user", "hello", 100, none, "general"⟩] ∧
    ((add_message emptyConvDB "missing" "user" "hello" none "general" 100).2).conversations = [] :=
  ⟨rfl, rfl, rfl⟩

/-- C6: `is_cacheable_question` returns false whenever a deny pattern
matches the lower-cased prompt (regardless of the allow list), true
exactly when no deny pattern matches and some allow pattern does, and
false when neither list matches; in particular
`is_cacheable_question "how to plot a histogram" = true`,
`is_cacheable_question "why is this error happening" = false` and
`is_cacheable_question "how to fix this error" = false`. -/
theorem is_cacheable_question_deny_precedence :
    (∀ prompt : String,
      is_cacheable_question prompt =
        (!(non_cacheable_patterns.any (fun p => reSearch p (pyLower prompt).data)) &&
          cacheable_patterns.any (fun p => reSearch p (pyLower prompt).data))) ∧
    is_cacheable_question "how to plot a histogram" = true ∧
    is_cacheable_question "why is this error happening" = false ∧
    is_cacheable_question "how to fix this error" = false := by
  refine ⟨fun prompt => ?_, by decide, by decide, by decide⟩
  unfold is_cacheable_question
  cases hd : non_cacheable_patterns.any (fun p => reSearch p (pyLower prompt).data) <;>
    cases ha : cacheable_patterns.any (fun p => reSearch p (pyLower prompt).data) <;>
      simp [hd, ha]

/-- C9: for every conversation and limit, `get_conversation_history`
(reverse of the newest-first, limit-truncated query) equals the suffix
of the chronological message sequence, oldest of the window first. -/
theorem history_equals_chronological_suffix :
    ∀ (db : ConvDB) (conversation_id : String) (max_messages : Nat),
      get_conversation_history db conversation_id max_messages =
        history_spec db conversation_id max_messages := by
  intro db cid n
  unfold get_conversation_history history_spec
  generalize List.insertionSort msgOldFirst (convMessages db cid) = l
  calc ((l.reverse.take n).map renderMsg).reverse
      = ((l.reverse.take n).reverse).map renderMsg := by
        rw [List.map_reverse]
    _ = (l.rtake n).map renderMsg := by
        rw [List.rtake_eq_reverse_take_reverse]
    _ = (l.drop (l.length - n)).map renderMsg := rfl

theorem list_dedup_toFinset (l : List String) : l.dedup.toFinset = l.toFinset := by
  ext x
  simp

theorem interCard_eq (a b : List String) :
    interCard a b = (a.toFinset ∩ b.toFinset).card := by
  unfold interCard
  have hnd : (a.dedup.filter (fun x => b.contains x)).Nodup :=
    (List.nodup_dedup a).filter _
  rw [← hnd.dedup, ← List.card_toFinset, List.toFinset_filter, list_dedup_toFinset,
    ← Finset.filter_mem_eq_inter]
  congr 1
  apply Finset.filter_congr
  intro x _
  simp [List.contains]

theorem unionCard_eq (a b : List String) :
    unionCard a b = (a.toFinset ∪ b.toFinset).card := by
  unfold unionCard setCard
  rw [← List.card_toFinset, List.toFinset_append]

theorem jaccard_self (a : List String) (h : a ≠ []) : jaccardIndex a a = 1 := by
  unfold jaccardIndex
  rw [interCard_eq, unionCard_eq, Finset.inter_self, Finset.union_self]
  have hne : a.toFinset.Nonempty := by
    obtain ⟨x, xs, rfl⟩ := List.exists_cons_of_ne_nil h
    exact ⟨x, by simp⟩
  have hpos := Finset.card_pos.mpr hne
  have hcast : (a.toFinset.card : ℚ) ≠ 0 := by
    have : a.toFinset.card ≠ 0 := by omega
    exact_mod_cast this
  exact div_self hcast

theorem jaccard_disjoint (a b : List String) (h : ∀ x ∈ a, x ∉ b) :
    jaccardIndex a b = 0 := by
  unfold jaccardIndex
  rw [interCard_eq]
  have : a.toFinset ∩ b.toFinset = ∅ := by
    ext x
    simp only [Finset.mem_inter, List.mem_toFinset, Finset.not_mem_empty, iff_false]
    rintro ⟨hx, hy⟩
    exact h x hx hy
  rw [this]
  simp

theorem unionCard_ne_zero (a b : List String) (h : a ≠ [] ∨ b ≠ []) :
    unionCard a b ≠ 0 := by
  rw [unionCard_eq]
  have hne : (a.toFinset ∪ b.toFinset).Nonempty := by
    rcases h with h | h
    · obtain ⟨x, xs, rfl⟩ := List.exists_cons_of_ne_nil h
      exact ⟨x, by simp⟩
    · obtain ⟨x, xs, rfl⟩ := List.exists_cons_of_ne_nil h
      exact ⟨x, by simp⟩
  have := Finset.card_pos.mpr hne
  omega

/-- C4 counterexample: two fingerprints whose `workspace_keys`,
`recent_commands` and `active_packages` are pairwise identical (all
empty), yet the similarity is `0.0`, not the `1.0` the claim demands:
every feature is skipped and the empty feature list yields `0.0`. -/
theorem similarity_identical_empty_zero :
    check_context_similarity (.fp [] [] [] 0) (.fp [] [] [] 0) = 0 ∧
    ¬ check_context_similarity (.fp [] [] [] 0) (.fp [] [] [] 0) = 1 := by
  have h : check_context_similarity (.fp [] [] [] 0) (.fp [] [] [] 0) = 0 := by
    simp [check_context_similarity]
  refine ⟨h, by rw [h]; norm_num⟩

/-- C4 amended: identical fingerprints yield similarity `1.0` provided
at least one of the three compared fields is non-empty; fully disjoint
fingerprints (each field non-empty on at least one side) yield `0.0`;
and fingerprints with no feature present on either side yield `0.0`. -/
theorem similarity_identical_disjoint_amended :
    (∀ (wk rc ap : List String) (dl1 dl2 : Nat),
      wk ≠ [] ∨ rc ≠ [] ∨ ap ≠ [] →
      check_context_similarity (.fp wk rc ap dl1) (.fp wk rc ap dl2) = 1) ∧
    (∀ (wk1 rc1 ap1 wk2 rc2 ap2 : List String) (dl1 dl2 : Nat),
      (∀ x ∈ wk1, x ∉ wk2) → (∀ x ∈ rc1, x ∉ rc2) → (∀ x ∈ ap1, x ∉ ap2) →
      wk1 ≠ [] ∨ wk2 ≠ [] → rc1 ≠ [] ∨ rc2 ≠ [] → ap1 ≠ [] ∨ ap2 ≠ [] →
      check_context_similarity (.fp wk1 rc1 ap1 dl1) (.fp wk2 rc2 ap2 dl2) = 0) ∧
    (∀ dl1 dl2 : Nat,
      check_context_similarity (.fp [] [] [] dl1) (.fp [] [] [] dl2) = 0) := by
  have hguard : ∀ a b : List String, a ≠ [] ∨ b ≠ [] →
      (!a.isEmpty || !b.isEmpty) = true := by
    intro a b hab
    rcases hab with h | h
    · obtain ⟨x, xs, rfl⟩ := List.exists_cons_of_ne_nil h
      simp
    · obtain ⟨x, xs, rfl⟩ := List.exists_cons_of_ne_nil h
      simp
  refine ⟨?_, ?_, ?_⟩
  · intro wk rc ap dl1 dl2 hne
    have hfeatlist : ∀ l : List String,
        (if (!l.isEmpty || !l.isEmpty) = true then
          [if (unionCard l l != 0) = true then jaccardIndex l l else 1] else []) =
        if l = [] then [] else [1] := by
      intro l
      cases l with
      | nil => simp
      | cons x xs =>
        rw [if_pos (by simp),
          if_pos (by simpa using unionCard_ne_zero (x :: xs) (x :: xs) (Or.inl (by simp))),
          jaccard_self (x :: xs) (by simp)]
        simp
    simp only [check_context_similarity]
    rw [hfeatlist wk, hfeatlist rc, hfeatlist ap]
    by_cases hw : wk = [] <;> by_cases hr : rc = [] <;> by_cases ha : ap = []
    · exact absurd hne (by simp [hw, hr, ha])
    all_goals simp only [hw, hr, ha, if_true, if_false]
    all_goals norm_num
  · intro wk1 rc1 ap1 wk2 rc2 ap2 dl1 dl2 h1 h2 h3 hw hr ha
    have helem : ∀ (a b : List String), (∀ x ∈ a, x ∉ b) → (a ≠ [] ∨ b ≠ []) →
        (if (unionCard a b != 0) = true then jaccardIndex a b else 1) = 0 := by
      intro a b hd hne
      rw [if_pos (by simpa using unionCard_ne_zero a b hne), jaccard_disjoint a b hd]
    simp only [check_context_similarity]
    rw [hguard _ _ hw, hguard _ _ hr, hguard _ _ ha, helem _ _ h1 hw, helem _ _ h2 hr,
      helem _ _ h3 ha]
    norm_num
  · intro dl1 dl2
    simp [check_context_similarity]

/-- Witness for the amended C4 theorem at concrete fingerprints. -/
theorem similarity_identical_disjoint_amended_witness :
    check_context_similarity (.fp ["a"] [] [] 0) (.fp ["a"] [] [] 3) = 1 ∧
    check_context_similarity (.fp ["a"] ["b"] [] 0) (.fp ["c"] ["d"] ["e"] 1) = 0 ∧
    check_context_similarity (.fp [] [] [] 2) (.fp [] [] [] 9) = 0 :=
  ⟨similarity_identical_disjoint_amended.1 ["a"] [] [] 0 3 (by simp),
    similarity_identical_disjoint_amended.2.1 ["a"] ["b"] [] ["c"] ["d"] ["e"] 0 1
      (by decide) (by decide) (by decide) (by simp) (by simp) (by simp),
    similarity_identical_disjoint_amended.2.2 2 9⟩

theorem similarity_boundary_four_fifths :
    check_context_similarity (.fp ["a", "b", "c", "d", "e"] [] [] 0)
      (.fp ["a", "b", "c", "d"] [] [] 0) = 4 / 5 := by
  have h1 : interCard ["a", "b", "c", "d", "e"] ["a", "b", "c", "d"] = 4 := by decide
  have h2 : unionCard ["a", "b", "c", "d", "e"] ["a", "b", "c", "d"] = 5 := by decide
  simp [check_context_similarity, jaccardIndex, h1, h2]

theorem cache_get_spec (cache : Cache) (now : Int) (prompt : String)
    (context_data : JVal) (hc : is_cacheable_question prompt = true) :
    (∀ h, cache_get cache now prompt context_data = some h →
      ∃ e, cache.lookup (get_cache_key prompt context_data) = some e ∧
        h.response = e.response) ∧
    ((cache_get cache now prompt context_data).isSome ↔
      ∃ e, cache.lookup (get_cache_key prompt context_data) = some e ∧
        now - e.timestamp < cache_ttl ∧
        check_context_similarity e.context_fingerprint
          (get_context_fingerprint context_data) > 4 / 5) := by
  unfold cache_get
  rw [hc]
  simp only [Bool.not_true, Bool.false_eq_true, if_false]
  cases hlook : cache.lookup (get_cache_key prompt context_data) with
  | none => simp
  | some e =>
    by_cases ht : now - e.timestamp < cache_ttl
    · by_cases hs : check_context_similarity e.context_fingerprint
          (get_context_fingerprint context_data) > 4 / 5
      · simp [ht, hs]
      · simp [ht, hs]
    · simp [ht]

/-- C3 counterexample: a cacheable prompt, a cache entry present under
the derived key, an age strictly below the ttl, and a similarity of
exactly `0.8` between the stored fingerprint and the read-time
fingerprint — yet `get` misses, because the code requires the
similarity to be strictly greater than `0.8`. -/
theorem cache_get_exact_boundary_miss :
    is_cacheable_question "how to plot" = true ∧
    cacheBoundary.lookup (get_cache_key "how to plot" ctx4) =
      some ⟨"resp", 0, .fp ["a", "b", "c", "d", "e"] [] [] 0, "how to plot"⟩ ∧
    ((100 : Int) - 0 < cache_ttl) ∧
    check_context_similarity (.fp ["a", "b", "c", "d", "e"] [] [] 0)
      (get_context_fingerprint ctx4) = 4 / 5 ∧
    cache_get cacheBoundary 100 "how to plot" ctx4 = none := by
  have hfp : get_context_fingerprint ctx4 = .fp ["a", "b", "c", "d"] [] [] 0 := by decide
  have hlook : cacheBoundary.lookup (get_cache_key "how to plot" ctx4) =
      some ⟨"resp", 0, .fp ["a", "b", "c", "d", "e"] [] [] 0, "how to plot"⟩ := rfl
  refine ⟨by decide, hlook, by decide,
    by rw [hfp]; exact similarity_boundary_four_fifths, ?_⟩
  have hiff := (cache_get_spec cacheBoundary 100 "how to plot" ctx4 (by decide)).2
  have hnot : ¬ (cache_get cacheBoundary 100 "how to plot" ctx4).isSome = true := by
    rw [hiff]
    rintro ⟨e, he, ht, hs⟩
    rw [hlook] at he
    cases he
    rw [hfp, similarity_boundary_four_fifths] at hs
    norm_num at hs
  cases hval : cache_get cacheBoundary 100 "how to plot" ctx4 with
  | none => rfl
  | some h => rw [hval] at hnot; simp at hnot

/-- C3 amended: for a cacheable prompt, `get` produces a hit exactly
when an entry exists under the key derived from the normalized prompt
and the snapshot fingerprint, its age is strictly below the ttl, and
the similarity between the stored and read-time fingerprints is
strictly greater than `0.8` (an entry at exactly `0.8` is a miss); the
hit carries the stored response. -/
theorem cache_get_hit_characterization (cache : Cache) (now : Int) (prompt : String)
    (context_data : JVal) (hc : is_cacheable_question prompt = true) :
    (∀ h, cache_get cache now prompt context_data = some h →
      ∃ e, cache.lookup (get_cache_key prompt context_data) = some e ∧
        h.response = e.response) ∧
    ((cache_get cache now prompt context_data).isSome ↔
      ∃ e, cache.lookup (get_cache_key prompt context_data) = some e ∧
        now - e.timestamp < cache_ttl ∧
        check_context_similarity e.context_fingerprint
          (get_context_fingerprint context_data) > 4 / 5) :=
  cache_get_spec cache now prompt context_data hc

/-- Witness for the amended C3 theorem: the entry written against the
identical fingerprint is served as a hit. -/
theorem cache_get_hit_characterization_witness :
    (∀ h, cache_get cacheExact 100 "how to plot" ctx4 = some h →
      ∃ e, cacheExact.lookup (get_cache_key "how to plot" ctx4) = some e ∧
        h.response = e.response) ∧
    ((cache_get cacheExact 100 "how to plot" ctx4).isSome ↔
      ∃ e, cacheExact.lookup (get_cache_key "how to plot" ctx4) = some e ∧
        (100 : Int) - e.timestamp < cache_ttl ∧
        check_context_similarity e.context_fingerprint
          (get_context_fingerprint ctx4) > 4 / 5) :=
  cache_get_hit_characterization cacheExact 100 "how to plot" ctx4 (by decide)

theorem lookup_dictInsert (c : Cache) (k : CacheKey) (v : CacheEntry) :
    (dictInsert c k v).lookup k = some v := by
  unfold dictInsert
  by_cases h : (List.lookup k c).isSome
  · rw [if_pos h]
    induction c with
    | nil => simp at h
    | cons p rest ih =>
      rcases p with ⟨pk, pv⟩
      by_cases hp : pk = k
      · subst hp
        simp only [List.map_cons, if_true, eq_self_iff_true]
        simp [List.lookup]
      · have hne : (k == pk) = false := by
          simp [Ne.symm hp]
        simp only [List.map_cons]
        rw [if_neg hp]
        rw [List.lookup] at h ⊢
        rw [hne] at h ⊢
        simp only at h ⊢
        exact ih h
  · rw [if_neg h]
    induction c with
    | nil => simp [List.lookup]
    | cons p rest ih =>
      rcases p with ⟨pk, pv⟩
      by_cases hp : (k == pk) = true
      · exfalso
        apply h
        rw [List.lookup, hp]
        simp
      · have hne : (k == pk) = false := by simp at hp ⊢; exact hp
        rw [List.cons_append, List.lookup, hne]
        simp only
        apply ih
        rw [List.lookup, hne] at h
        simpa using h

theorem dictInsert_length (c : Cache) (k : CacheKey) (v : CacheEntry) :
    (dictInsert c k v).length ≤ c.length + 1 := by
  unfold dictInsert
  by_cases h : (List.lookup k c).isSome
  · rw [if_pos h]
    simp
  · rw [if_neg h]
    simp

/-- C10: for every cacheable prompt and every snapshot whose workspace
objects, console history and environment package list are all empty
(including the empty snapshot), `get` returns `None` even immediately
after `set` with the identical snapshot: the entry is stored, but the
similarity between its fingerprint and the read-time fingerprint is
`0.0`, which never clears the threshold.  (The cache is assumed below
its capacity, so the freshly stored entry is not evicted by the size
cleanup.) -/
theorem empty_context_cached_response_unreachable :
    ∀ (cache : Cache) (now now2 : Int) (prompt : String) (context_data : JVal)
      (response : String),
      is_cacheable_question prompt = true →
      cache.length < max_cache_size →
      jKeys (jGet context_data "workspace_objects" (.jobj [])) = [] →
      jStrList (jGet context_data "console_history" (.jarr [])) = [] →
      jStrList (jGet (jGet context_data "environment_info" (.jobj []))
        "packages" (.jarr [])) = [] →
      (cache_set cache now prompt context_data response).lookup
          (get_cache_key prompt context_data) =
        some ⟨response, now, get_context_fingerprint context_data,
          pyStrip (pyLower prompt)⟩ ∧
      cache_get (cache_set cache now prompt context_data response) now2 prompt
        context_data = none := by
  intro cache now now2 prompt cd resp hc hlen hk hh hp
  have hfpcase : get_context_fingerprint cd = .emptyfp ∨
      ∃ dl, get_context_fingerprint cd = .fp [] [] [] dl := by
    unfold get_context_fingerprint
    by_cases ht : cd.truthy
    · right
      refine ⟨pyLen (jGet cd "document_content" (.jstr "")), ?_⟩
      rw [if_neg (by simp [ht]), hk, hh, hp]
      simp [sortedStrings, List.insertionSort, lastN]
    · left
      rw [if_pos (by simp [ht])]
  have hsim0 : check_context_similarity (get_context_fingerprint cd)
      (get_context_fingerprint cd) = 0 := by
    rcases hfpcase with h | ⟨dl, h⟩ <;> rw [h] <;> simp [check_context_similarity]
  have hset : cache_set cache now prompt cd resp =
      dictInsert cache (get_cache_key prompt cd)
        ⟨resp, now, get_context_fingerprint cd, pyStrip (pyLower prompt)⟩ := by
    unfold cache_set
    rw [hc]
    simp only [Bool.not_true, Bool.false_eq_true, if_false]
    rw [if_neg ?hno]
    case hno =>
      have := dictInsert_length cache (get_cache_key prompt cd)
        ⟨resp, now, get_context_fingerprint cd, pyStrip (pyLower prompt)⟩
      omega
  rw [hset]
  refine ⟨lookup_dictInsert _ _ _, ?_⟩
  have hiff := (cache_get_spec
    (dictInsert cache (get_cache_key prompt cd)
      ⟨resp, now, get_context_fingerprint cd, pyStrip (pyLower prompt)⟩)
    now2 prompt cd hc).2
  have hnot : ¬ (cache_get
      (dictInsert cache (get_cache_key prompt cd)
        ⟨resp, now, get_context_fingerprint cd, pyStrip (pyLower prompt)⟩)
      now2 prompt cd).isSome = true := by
    rw [hiff]
    rintro ⟨e, he, ht, hs⟩
    rw [lookup_dictInsert] at he
    cases he
    rw [hsim0] at hs
    norm_num at hs
  cases hval : cache_get
      (dictInsert cache (get_cache_key prompt cd)
        ⟨resp, now, get_context_fingerprint cd, pyStrip (pyLower prompt)⟩)
      now2 prompt cd with
  | none => rfl
  | some h => rw [hval] at hnot; simp at hnot

/-- Witness for C10 at the empty snapshot and an empty cache. -/
theorem empty_context_cached_response_unreachable_witness :
    (cache_set [] 0 "how to plot" (.jobj []) "r").lookup
        (get_cache_key "how to plot" (.jobj [])) =
      some ⟨"r", 0, get_context_fingerprint (.jobj []),
        pyStrip (pyLower "how to plot")⟩ ∧
    cache_get (cache_set [] 0 "how to plot" (.jobj []) "r") 0 "how to plot"
      (.jobj []) = none :=
  empty_context_cached_response_unreachable [] 0 0 "how to plot" (.jobj []) "r"
    (by decide) (by decide) (by decide) (by decide) (by decide)

theorem substr_trans {α : Type} {l m k : List α} (h1 : l <:+: m) (h2 : m <:+: k) :
    l <:+: k := by
  obtain ⟨s, t, rfl⟩ := h1
  obtain ⟨u, v, rfl⟩ := h2
  exact ⟨u ++ s, t ++ v, by simp⟩

theorem substr_ext_right {α : Type} {l m t : List α} (h : l <:+: m) : l <:+: m ++ t := by
  obtain ⟨s, u, rfl⟩ := h
  exact ⟨s, u ++ t, by simp⟩

theorem substr_ext_left {α : Type} {l m : List α} (s : List α) (h : l <:+: m) :
    l <:+: s ++ m := by
  obtain ⟨u, v, rfl⟩ := h
  exact ⟨s ++ u, v, by simp⟩

theorem numberFrom_get {α : Type} : ∀ (l : List α) (n i : Nat) (h : i < l.length),
    (n + i, l.get ⟨i, h⟩) ∈ numberFrom n l := by
  intro l
  induction l with
  | nil =>
    intro n i h
    simp at h
  | cons a rest ih =>
    intro n i h
    cases i with
    | zero => simp [numberFrom]
    | succ j =>
      have hj : j < rest.length := by simpa using Nat.lt_of_succ_lt_succ h
      have hmem := ih (n + 1) j hj
      simp only [numberFrom, List.mem_cons]
      right
      have harith : n + (j + 1) = n + 1 + j := by omega
      rw [harith]
      simpa using hmem

theorem substr_of_mem_concat : ∀ (l : List String) (x : String), x ∈ l →
    x.data <:+: (concatStrings l).data := by
  intro l
  induction l with
  | nil =>
    intro x hx
    simp at hx
  | cons s rest ih =>
    intro x hx
    have hdata : (concatStrings (s :: rest)).data =
        s.data ++ (concatStrings rest).data := by
      simp [concatStrings, String.data_append]
    rcases List.mem_cons.mp hx with rfl | hx
    · rw [hdata]
      exact ⟨[], (concatStrings rest).data, by simp⟩
    · rw [hdata]
      exact substr_ext_left _ (ih x hx)

theorem messageLine_substr_block (i : Nat) (msg : HistEntry) :
    (messageLine i msg).data <:+: (messageBlock i msg).data := by
  refine ⟨("\n" : String).data,
    ("\n" ++ msg.content ++ "\n" ++ contextLine msg.context_data).data, ?_⟩
  simp [messageBlock, String.data_append]

/-- C5 amended: for every conversation with at least one rendered
message, the formatted context contains the section header
`=== CONVERSATION HISTORY ===` verbatim, and for every rendered turn N
(1-based) a line `<marker> R (Message N):` where `R` is the title-cased
role and the marker is the role-dependent emoji of the source — not the
bare `role (Message N):` of the claim. -/
theorem format_context_contains_header_and_lines :
    ∀ (db : ConvDB) (conversation_id : String) (max_messages : Nat),
      get_conversation_history db conversation_id max_messages ≠ [] →
      ("=== CONVERSATION HISTORY ===").data <:+:
        (format_conversation_context db conversation_id max_messages).data ∧
      ∀ (i : Nat) (h : i < (get_conversation_history db conversation_id max_messages).length),
        (messageLine (1 + i)
            ((get_conversation_history db conversation_id max_messages).get ⟨i, h⟩)).data <:+:
          (format_conversation_context db conversation_id max_messages).data := by
  intro db cid n hne
  have hemp : (get_conversation_history db cid n).isEmpty = false := by
    cases hh : get_conversation_history db cid n with
    | nil => exact absurd hh hne
    | cons a rest => simp
  have hout : format_conversation_context db cid n =
      "\n\n=== CONVERSATION HISTORY ===\n" ++
        concatStrings ((numberFrom 1 (get_conversation_history db cid n)).map
          (fun p => messageBlock p.1 p.2)) := by
    unfold format_conversation_context
    simp only [hemp, Bool.false_eq_true, if_false]
  rw [hout]
  constructor
  · have hsmall : ("=== CONVERSATION HISTORY ===").data <:+:
        ("\n\n=== CONVERSATION HISTORY ===\n" : String).data := by decide
    rw [String.data_append]
    obtain ⟨s, t, hst⟩ := hsmall
    refine ⟨s, t ++ (concatStrings ((numberFrom 1 (get_conversation_history db cid n)).map
      (fun p => messageBlock p.1 p.2))).data, ?_⟩
    rw [← hst]
    simp
  · intro i h
    have hmem := numberFrom_get (get_conversation_history db cid n) 1 i h
    have hblock : messageBlock (1 + i) ((get_conversation_history db cid n).get ⟨i, h⟩) ∈
        (numberFrom 1 (get_conversation_history db cid n)).map
          (fun p => messageBlock p.1 p.2) :=
      List.mem_map.mpr
        ⟨(1 + i, (get_conversation_history db cid n).get ⟨i, h⟩), hmem, rfl⟩
    have h1 := substr_of_mem_concat _ _ hblock
    have h2 := messageLine_substr_block (1 + i)
      ((get_conversation_history db cid n).get ⟨i, h⟩)
    rw [String.data_append]
    exact substr_trans h2 (substr_ext_left _ h1)

/-- Witness for the amended C5 theorem at a concrete database. -/
theorem format_context_contains_header_and_lines_witness :
    ("=== CONVERSATION HISTORY ===").data <:+:
      (format_conversation_context convDB1 "c1" 5).data ∧
    ∀ (i : Nat) (h : i < (get_conversation_history convDB1 "c1" 5).length),
      (messageLine (1 + i)
          ((get_conversation_history convDB1 "c1" 5).get ⟨i, h⟩)).data <:+:
        (format_conversation_context convDB1 "c1" 5).data :=
  format_context_contains_header_and_lines convDB1 "c1" 5
    (by simp [show get_conversation_history convDB1 "c1" 5 =
      [⟨"user", "hi", none, "general", 5⟩] from rfl])

/-- C5 counterexample: a conversation with one user message.  The
formatted block renders the turn line as `<emoji> User (Message 1):`
with the role title-cased and an emoji marker, so the text does not
contain the claimed verbatim line `user (Message 1):`. -/
theorem format_context_not_verbatim_role_line :
    format_conversation_context convDB1 "c1" 5 =
      "\n\n=== CONVERSATION HISTORY ===\n\n" ++ userEmoji ++
        " User (Message 1):\nhi\n" ∧
    ¬ ("user (Message 1):").data <:+:
        (format_conversation_context convDB1 "c1" 5).data := by
  have hval : format_conversation_context convDB1 "c1" 5 =
      "\n\n=== CONVERSATION HISTORY ===\n\n" ++ userEmoji ++
        " User (Message 1):\nhi\n" := by decide
  refine ⟨hval, ?_⟩
  rw [hval]
  decide

theorem char_toNat_inj {a b : Char} (h : a.toNat = b.toNat) : a = b :=
  Char.ext (UInt32.ext h)

theorem strLeList_total : ∀ as bs : List Char,
    strLeList as bs = true ∨ strLeList bs as = true := by
  intro as
  induction as with
  | nil => intro bs; left; rfl
  | cons a as ih =>
    intro bs
    cases bs with
    | nil => right; rfl
    | cons b bs =>
      rcases Nat.lt_trichotomy a.toNat b.toNat with h | h | h
      · left
        simp [strLeList, charLt, h]
      · have hab : a = b := char_toNat_inj h
        subst hab
        rcases ih bs with h2 | h2
        · left
          simp [strLeList, h2]
        · right
          simp [strLeList, h2]
      · right
        simp [strLeList, charLt, h]

theorem strLeList_trans : ∀ as bs cs : List Char, strLeList as bs = true →
    strLeList bs cs = true → strLeList as cs = true := by
  intro as
  induction as with
  | nil => intro bs cs _ _; rfl
  | cons a as ih =>
    intro bs cs h1 h2
    cases bs with
    | nil => simp [strLeList] at h1
    | cons b bs =>
      cases cs with
      | nil => simp [strLeList] at h2
      | cons c cs =>
        simp only [strLeList, Bool.or_eq_true, Bool.and_eq_true, beq_iff_eq, charLt,
          decide_eq_true_eq] at h1 h2 ⊢
        rcases h1 with h1 | ⟨rfl, h1⟩
        · rcases h2 with h2 | ⟨rfl, h2⟩
          · left; omega
          · left; exact h1
        · rcases h2 with h2 | ⟨rfl, h2⟩
          · left; exact h2
          · right; exact ⟨rfl, ih bs cs h1 h2⟩

theorem strLeList_antisymm : ∀ as bs : List Char, strLeList as bs = true →
    strLeList bs as = true → as = bs := by
  intro as
  induction as with
  | nil =>
    intro bs h1 h2
    cases bs with
    | nil => rfl
    | cons b bs => simp [strLeList] at h2
  | cons a as ih =>
    intro bs h1 h2
    cases bs with
    | nil => simp [strLeList] at h1
    | cons b bs =>
      simp only [strLeList, Bool.or_eq_true, Bool.and_eq_true, beq_iff_eq, charLt,
        decide_eq_true_eq] at h1 h2
      rcases h1 with h1 | ⟨rfl, h1⟩
      · rcases h2 with h2 | ⟨he, h2⟩
        · omega
        · exact absurd h1 (by rw [he]; omega)
      · rcases h2 with h2 | ⟨_, h2⟩
        · omega
        · rw [ih bs h1 h2]

theorem kvLe_total (a b : String × JVal) : kvLe a b ∨ kvLe b a :=
  strLeList_total a.1.data b.1.data

theorem kvLe_trans {a b c : String × JVal} (h1 : kvLe a b) (h2 : kvLe b c) : kvLe a c :=
  strLeList_trans a.1.data b.1.data c.1.data h1 h2

theorem kvLe_key_antisymm {a b : String × JVal} (h1 : kvLe a b) (h2 : kvLe b a) :
    a.1 = b.1 := by
  have := strLeList_antisymm a.1.data b.1.data h1 h2
  exact String.ext this

theorem lookup_eq_none_iff {β : Type} (l : List (String × β)) (k : String) :
    l.lookup k = none ↔ k ∉ l.map Prod.fst := by
  induction l with
  | nil => simp [List.lookup]
  | cons p rest ih =>
    rcases p with ⟨pk, pv⟩
    by_cases h : k = pk
    · subst h
      simp [List.lookup]
    · have hne : (k == pk) = false := by simp [h]
      simp [List.lookup, hne, ih, h]

theorem lookup_mem {β : Type} {l : List (String × β)} {k : String} {v : β}
    (h : l.lookup k = some v) : (k, v) ∈ l := by
  induction l with
  | nil => simp [List.lookup] at h
  | cons p rest ih =>
    rcases p with ⟨pk, pv⟩
    by_cases hk : k = pk
    · subst hk
      simp [List.lookup] at h
      subst h
      exact List.mem_cons_self _ _
    · have hne : (k == pk) = false := by simp [hk]
      rw [List.lookup, hne] at h
      simp only at h
      exact List.mem_cons_of_mem _ (ih h)

theorem lookup_eq_some_of_mem_nodup {β : Type} {l : List (String × β)} {k : String}
    {v : β} (hn : (l.map Prod.fst).Nodup) (hm : (k, v) ∈ l) : l.lookup k = some v := by
  induction l with
  | nil => simp at hm
  | cons p rest ih =>
    rcases p with ⟨pk, pv⟩
    rcases List.mem_cons.mp hm with he | hm2
    · simp only [Prod.mk.injEq] at he
      obtain ⟨rfl, rfl⟩ := he
      simp [List.lookup]
    · have hk : ¬ k = pk := by
        intro h
        subst h
        have hmem : k ∈ rest.map Prod.fst := List.mem_map.mpr ⟨(k, v), hm2, rfl⟩
        exact (List.nodup_cons.mp hn).1 hmem
      have hne : (k == pk) = false := by simp [hk]
      rw [List.lookup, hne]
      simp only
      exact ih (List.nodup_cons.mp hn).2 hm2

theorem lookup_perm {β : Type} {l1 l2 : List (String × β)} (hp : l1.Perm l2)
    (hn : (l1.map Prod.fst).Nodup) (k : String) : l1.lookup k = l2.lookup k := by
  cases h : l1.lookup k with
  | some v =>
    have hm2 := hp.mem_iff.mp (lookup_mem h)
    have hn2 : (l2.map Prod.fst).Nodup := ((hp.map Prod.fst).nodup_iff).mp hn
    exact (lookup_eq_some_of_mem_nodup hn2 hm2).symm
  | none =>
    have h1 := (lookup_eq_none_iff _ _).mp h
    have h2 : k ∉ l2.map Prod.fst := fun hh => h1 ((hp.map Prod.fst).mem_iff.mpr hh)
    exact ((lookup_eq_none_iff _ _).mpr h2).symm

theorem sorted_lookup_ext : ∀ l1 l2 : List (String × JVal),
    List.Sorted kvLe l1 → List.Sorted kvLe l2 →
    (l1.map Prod.fst).Nodup → (l2.map Prod.fst).Nodup →
    (∀ k, l1.lookup k = l2.lookup k) → l1 = l2 := by
  intro l1
  induction l1 with
  | nil =>
    intro l2 _ _ _ _ hl
    cases l2 with
    | nil => rfl
    | cons q t2 =>
      rcases q with ⟨b, vb⟩
      have := hl b
      simp [List.lookup] at this
  | cons p t1 ih =>
    intro l2 hs1 hs2 hn1 hn2 hl
    rcases p with ⟨a, va⟩
    cases l2 with
    | nil =>
      have := hl a
      simp [List.lookup] at this
    | cons q t2 =>
      rcases q with ⟨b, vb⟩
      have hla : ((a, va) :: t1).lookup a = some va := by simp [List.lookup]
      have hlb : ((b, vb) :: t2).lookup b = some vb := by simp [List.lookup]
      have hmem2 : (a, va) ∈ (b, vb) :: t2 := lookup_mem (by rw [← hl a]; exact hla)
      have hmem1 : (b, vb) ∈ (a, va) :: t1 := lookup_mem (by rw [hl b]; exact hlb)
      have hab : a = b := by
        rcases List.mem_cons.mp hmem2 with he | hm
        · simp only [Prod.mk.injEq] at he
          exact he.1
        · rcases List.mem_cons.mp hmem1 with he2 | hm2
          · simp only [Prod.mk.injEq] at he2
            exact he2.1.symm
          · have hba : kvLe (b, vb) (a, va) := List.rel_of_sorted_cons hs2 _ hm
            have hab2 : kvLe (a, va) (b, vb) := List.rel_of_sorted_cons hs1 _ hm2
            exact kvLe_key_antisymm hab2 hba
      subst hab
      have hv : va = vb := by
        have := hl a
        rw [hla, hlb] at this
        exact Option.some.inj this
      subst hv
      congr 1
      apply ih t2 (List.sorted_cons.mp hs1).2 (List.sorted_cons.mp hs2).2
        (List.nodup_cons.mp hn1).2 (List.nodup_cons.mp hn2).2
      intro k
      by_cases hk : k = a
      · subst hk
        rw [(lookup_eq_none_iff t1 k).mpr (List.nodup_cons.mp hn1).1,
          (lookup_eq_none_iff t2 k).mpr (List.nodup_cons.mp hn2).1]
      · have hne : (k == a) = false := by simp [hk]
        have := hl k
        rw [List.lookup, List.lookup, hne] at this
        simpa using this

theorem sizeOf_lt_of_mem_jarr {x : JVal} {xs : List JVal} (h : x ∈ xs) :
    sizeOf x < sizeOf (JVal.jarr xs) := by
  have := List.sizeOf_lt_of_mem h
  simp only [JVal.jarr.sizeOf_spec]
  omega

theorem sizeOf_snd_lt_of_mem_jobj {p : String × JVal} {kvs : List (String × JVal)}
    (h : p ∈ kvs) : sizeOf p.2 < sizeOf (JVal.jobj kvs) := by
  have h1 := List.sizeOf_lt_of_mem h
  have h2 : sizeOf p.2 < sizeOf p := by
    obtain ⟨k, v⟩ := p
    simp only [Prod.mk.sizeOf_spec]
    omega
  simp only [JVal.jobj.sizeOf_spec]
  omega

theorem jval_strong_ind (motive : JVal → Prop)
    (ind : ∀ p, (∀ q, sizeOf q < sizeOf p → motive q) → motive p) : ∀ p, motive p := by
  have H : ∀ n (p : JVal), sizeOf p < n → motive p := by
    intro n
    induction n with
    | zero => intro p hp; omega
    | succ n ihn =>
      intro p hp
      exact ind p (fun q hq => ihn q (by omega))
  intro p
  exact H (sizeOf p + 1) p (by omega)

theorem canonKvs_map_fst (kvs : List (String × JVal)) :
    (canonKvs kvs).map Prod.fst = kvs.map Prod.fst := by
  induction kvs with
  | nil => rfl
  | cons p rest ih =>
    rcases p with ⟨k, v⟩
    simp [canonKvs, ih]

theorem lookup_canonKvs (kvs : List (String × JVal)) (k : String) :
    (canonKvs kvs).lookup k = (kvs.lookup k).map canon := by
  induction kvs with
  | nil => simp [canonKvs, List.lookup]
  | cons p rest ih =>
    rcases p with ⟨pk, pv⟩
    by_cases h : k = pk
    · subst h
      simp [canonKvs, List.lookup]
    · have hne : (k == pk) = false := by simp [h]
      rw [canonKvs, List.lookup, List.lookup, hne]
      simpa using ih

theorem structEqKvs_lookup : ∀ {kvs1 kvs2 : List (String × JVal)},
    structEqKvs kvs1 kvs2 = true →
    ∀ p ∈ kvs1, ∃ v2, kvs2.lookup p.1 = some v2 ∧ structEqB p.2 v2 = true := by
  intro kvs1
  induction kvs1 with
  | nil =>
    intro kvs2 _ p hp
    simp at hp
  | cons q rest ih =>
    intro kvs2 h p hp
    rcases q with ⟨k, v⟩
    rw [structEqKvs, Bool.and_eq_true] at h
    rcases List.mem_cons.mp hp with rfl | hp2
    · cases hlk : kvs2.lookup k with
      | none =>
        rw [hlk] at h
        simp at h
      | some v2 =>
        refine ⟨v2, rfl, ?_⟩
        have h1 := h.1
        rw [hlk] at h1
        simpa using h1
    · exact ih h.2 p hp2

theorem jwfKvs_mem : ∀ {kvs : List (String × JVal)}, jwfKvs kvs = true →
    ∀ p ∈ kvs, jwf p.2 = true := by
  intro kvs
  induction kvs with
  | nil =>
    intro _ p hp
    simp at hp
  | cons q rest ih =>
    intro h p hp
    rcases q with ⟨k, v⟩
    rw [jwfKvs, Bool.and_eq_true] at h
    rcases List.mem_cons.mp hp with rfl | hp2
    · exact h.1
    · exact ih h.2 p hp2

theorem jwfList_mem : ∀ {xs : List JVal}, jwfList xs = true → ∀ x ∈ xs, jwf x = true := by
  intro xs
  induction xs with
  | nil =>
    intro _ x hx
    simp at hx
  | cons y rest ih =>
    intro h x hx
    rw [jwfList, Bool.and_eq_true] at h
    rcases List.mem_cons.mp hx with rfl | hx2
    · exact h.1
    · exact ih h.2 x hx2

theorem mem_of_subset_nodup_length {l1 l2 : List String} (hn1 : l1.Nodup)
    (hn2 : l2.Nodup) (hsub : ∀ x ∈ l1, x ∈ l2) (hlen : l2.length ≤ l1.length) :
    ∀ x ∈ l2, x ∈ l1 := by
  have h1 : l1.toFinset ⊆ l2.toFinset := by
    intro x hx
    rw [List.mem_toFinset] at hx ⊢
    exact hsub x hx
  have hc1 : l1.toFinset.card = l1.length := by
    rw [List.card_toFinset, hn1.dedup]
  have hc2 : l2.toFinset.card = l2.length := by
    rw [List.card_toFinset, hn2.dedup]
  have hfin : l1.toFinset = l2.toFinset :=
    Finset.eq_of_subset_of_card_le h1 (by omega)
  intro x hx
  have : x ∈ l1.toFinset := by
    rw [hfin, List.mem_toFinset]
    exact hx
  rwa [List.mem_toFinset] at this

theorem canonList_congr : ∀ xs ys : List JVal,
    (∀ x ∈ xs, ∀ y, jwf x = true → jwf y = true → structEqB x y = true →
      canon x = canon y) →
    jwfList xs = true → jwfList ys = true → xs.length = ys.length →
    structEqList xs ys = true → canonList xs = canonList ys := by
  intro xs
  induction xs with
  | nil =>
    intro ys _ _ _ hlen _
    cases ys with
    | nil => rfl
    | cons y ys => simp at hlen
  | cons x xs ih =>
    intro ys hpt hxs hys hlen heq
    cases ys with
    | nil => simp at hlen
    | cons y ys =>
      rw [structEqList, Bool.and_eq_true] at heq
      rw [jwfList, Bool.and_eq_true] at hxs hys
      rw [canonList, canonList]
      rw [hpt x (List.mem_cons_self _ _) y hxs.1 hys.1 heq.1]
      rw [ih ys (fun x' hx' => hpt x' (List.mem_cons_of_mem _ hx')) hxs.2 hys.2
        (by simpa using hlen) heq.2]

theorem canon_eq_of_structEqB : ∀ p q : JVal, jwf p = true → jwf q = true →
    structEqB p q = true → canon p = canon q := by
  have main : ∀ p : JVal, ∀ q, jwf p = true → jwf q = true →
      structEqB p q = true → canon p = canon q := by
    intro p
    induction p using jval_strong_ind with
    | ind p IH =>
      intro q hp hq heq
      cases p with
      | jnull =>
        cases q <;> first | rfl | (simp [structEqB] at heq)
      | jbool a =>
        cases q with
        | jbool b =>
          rw [structEqB] at heq
          simp only [beq_iff_eq] at heq
          rw [heq]
        | jnull => simp [structEqB] at heq
        | jnum n => simp [structEqB] at heq
        | jstr s => simp [structEqB] at heq
        | jarr xs => simp [structEqB] at heq
        | jobj kvs => simp [structEqB] at heq
      | jnum a =>
        cases q with
        | jnum b =>
          rw [structEqB] at heq
          simp only [beq_iff_eq] at heq
          rw [heq]
        | jnull => simp [structEqB] at heq
        | jbool b => simp [structEqB] at heq
        | jstr s => simp [structEqB] at heq
        | jarr xs => simp [structEqB] at heq
        | jobj kvs => simp [structEqB] at heq
      | jstr a =>
        cases q with
        | jstr b =>
          rw [structEqB] at heq
          simp only [beq_iff_eq] at heq
          rw [heq]
        | jnull => simp [structEqB] at heq
        | jbool b => simp [structEqB] at heq
        | jnum n => simp [structEqB] at heq
        | jarr xs => simp [structEqB] at heq
        | jobj kvs => simp [structEqB] at heq
      | jarr xs =>
        cases q with
        | jarr ys =>
          rw [structEqB, Bool.and_eq_true] at heq
          obtain ⟨hlen, hlist⟩ := heq
          rw [jwf] at hp hq
          rw [canon, canon]
          rw [canonList_congr xs ys
            (fun x hx y hwx hwy hxy =>
              IH x (sizeOf_lt_of_mem_jarr hx) y hwx hwy hxy)
            hp hq (by simpa using hlen) hlist]
        | jnull => simp [structEqB] at heq
        | jbool b => simp [structEqB] at heq
        | jnum n => simp [structEqB] at heq
        | jstr s => simp [structEqB] at heq
        | jobj kvs => simp [structEqB] at heq
      | jobj kvs1 =>
        cases q with
        | jobj kvs2 =>
          rw [structEqB, Bool.and_eq_true] at heq
          obtain ⟨hlen, hkvs⟩ := heq
          simp only [beq_iff_eq] at hlen
          rw [jwf, Bool.and_eq_true, decide_eq_true_eq] at hp hq
          rw [canon, canon]
          congr 1
          haveI : IsTotal (String × JVal) kvLe := ⟨kvLe_total⟩
          haveI : IsTrans (String × JVal) kvLe := ⟨fun _ _ _ => kvLe_trans⟩
          have hnod1 : ((List.insertionSort kvLe (canonKvs kvs1)).map Prod.fst).Nodup := by
            refine (((List.perm_insertionSort kvLe (canonKvs kvs1)).map
              Prod.fst).nodup_iff).mpr ?_
            rw [canonKvs_map_fst]
            exact hp.1
          have hnod2 : ((List.insertionSort kvLe (canonKvs kvs2)).map Prod.fst).Nodup := by
            refine (((List.perm_insertionSort kvLe (canonKvs kvs2)).map
              Prod.fst).nodup_iff).mpr ?_
            rw [canonKvs_map_fst]
            exact hq.1
          apply sorted_lookup_ext
          · exact List.sorted_insertionSort kvLe _
          · exact List.sorted_insertionSort kvLe _
          · exact hnod1
          · exact hnod2
          · intro k
            rw [lookup_perm (List.perm_insertionSort kvLe (canonKvs kvs1)) hnod1 k,
              lookup_perm (List.perm_insertionSort kvLe (canonKvs kvs2)) hnod2 k,
              lookup_canonKvs, lookup_canonKvs]
            cases hk1 : kvs1.lookup k with
            | some v =>
              have hmem := lookup_mem hk1
              obtain ⟨v2, hlk2, hse⟩ := structEqKvs_lookup hkvs (k, v) hmem
              rw [hlk2]
              simp only [Option.map_some']
              rw [IH v (sizeOf_snd_lt_of_mem_jobj hmem) v2
                (jwfKvs_mem hp.2 (k, v) hmem)
                (jwfKvs_mem hq.2 (k, v2) (lookup_mem hlk2)) hse]
            | none =>
              have hnone1 := (lookup_eq_none_iff kvs1 k).mp hk1
              have hsub : ∀ x ∈ kvs1.map Prod.fst, x ∈ kvs2.map Prod.fst := by
                intro x hx
                obtain ⟨pp, hp1, rfl⟩ := List.mem_map.mp hx
                obtain ⟨v2, hlk2, _⟩ := structEqKvs_lookup hkvs pp hp1
                exact List.mem_map.mpr ⟨(pp.1, v2), lookup_mem hlk2, rfl⟩
              have hrev := mem_of_subset_nodup_length hp.1 hq.1 hsub
                (by rw [List.length_map, List.length_map]; omega)
              have hk2 : kvs2.lookup k = none :=
                (lookup_eq_none_iff kvs2 k).mpr (fun hh => hnone1 (hrev k hh))
              rw [hk2]
        | jnull => simp [structEqB] at heq
        | jbool b => simp [structEqB] at heq
        | jnum n => simp [structEqB] at heq
        | jstr s => simp [structEqB] at heq
        | jarr ys => simp [structEqB] at heq
  exact main

theorem enforce_rows_subset (db : RagDB) (ac : String) :
    (∀ r ∈ (rag_enforce_memory_limits db ac).rows, r ∈ db.rows) ∧
    (rag_enforce_memory_limits db ac).nextId = db.nextId := by
  have htot : ∀ d : RagDB, (∀ r ∈ (rag_enforce_total d).rows, r ∈ d.rows) ∧
      (rag_enforce_total d).nextId = d.nextId := by
    intro d
    unfold rag_enforce_total
    by_cases h : d.rows.length > max_total_contexts
    · rw [if_pos h]
      exact ⟨fun r hr => (List.mem_filter.mp hr).1, rfl⟩
    · rw [if_neg h]
      exact ⟨fun r hr => hr, rfl⟩
  have huser : ∀ (d : RagDB) (a : String),
      (∀ r ∈ (rag_enforce_user d a).rows, r ∈ d.rows) ∧
      (rag_enforce_user d a).nextId = d.nextId := by
    intro d a
    unfold rag_enforce_user
    by_cases h : (d.rows.filter (fun r => r.access_code == a)).length >
        max_contexts_per_user
    · rw [if_pos h]
      exact ⟨fun r hr => (List.mem_filter.mp hr).1, rfl⟩
    · rw [if_neg h]
      exact ⟨fun r hr => hr, rfl⟩
  unfold rag_enforce_memory_limits
  constructor
  · intro r hr
    exact (htot db).1 r ((huser (rag_enforce_total db) ac).1 r hr)
  · rw [(huser (rag_enforce_total db) ac).2, (htot db).2]

theorem store_context_eval_dedup {db : RagDB} {ac ct : String} {cd : JVal} {now : Nat}
    {r0 : CtxRow}
    (hfind : db.rows.find?
      (fun r => r.content_hash == generate_content_hash (dumps (canon cd))) = some r0) :
    store_context db ac cd ct now =
      (some r0.id,
        { db with rows := db.rows.map (fun r =>
            if r.content_hash == generate_content_hash (dumps (canon cd)) then
              { r with timestamp := now }
            else r) }) := by
  simp only [store_context]
  rw [hfind]

theorem store_context_eval_fresh {db : RagDB} {ac ct : String} {cd : JVal} {now : Nat}
    (hfind : db.rows.find?
      (fun r => r.content_hash == generate_content_hash (dumps (canon cd))) = none) :
    store_context db ac cd ct now =
      (some (rag_enforce_memory_limits db ac).nextId,
        { rows := (rag_enforce_memory_limits db ac).rows ++
            [mkStoredRow (rag_enforce_memory_limits db ac).nextId ac cd ct now],
          nextId := (rag_enforce_memory_limits db ac).nextId + 1 }) := by
  simp only [store_context]
  rw [hfind]

theorem find?_touch (rows : List CtxRow) (h : String) (now : Nat) :
    (rows.map (fun r => if r.content_hash == h then { r with timestamp := now } else r)).find?
      (fun r => r.content_hash == h) =
    (rows.find? (fun r => r.content_hash == h)).map
      (fun r => if r.content_hash == h then { r with timestamp := now } else r) := by
  induction rows with
  | nil => rfl
  | cons r rest ih =>
    simp only [List.map_cons]
    by_cases hr : r.content_hash = h
    · rw [if_pos (show (r.content_hash == h) = true by simp [hr])]
      rw [List.find?_cons_of_pos _ (by simp [hr]),
        List.find?_cons_of_pos _ (by simp [hr]), Option.map_some']
      rw [if_pos (show (r.content_hash == h) = true by simp [hr])]
    · rw [if_neg (show ¬ (r.content_hash == h) = true by simp [hr])]
      rw [List.find?_cons_of_neg _ (by simp [hr]),
        List.find?_cons_of_neg _ (by simp [hr])]
      exact ih

theorem ownerRows_map_touch (rows : List CtxRow) (h : String) (now : Nat) (ac : String) :
    ((rows.map (fun r => if r.content_hash == h then { r with timestamp := now } else r)).filter
      (fun r => r.access_code == ac)).length =
    (rows.filter (fun r => r.access_code == ac)).length := by
  induction rows with
  | nil => rfl
  | cons r rest ih =>
    simp only [List.map_cons]
    by_cases hr : r.content_hash = h
    · rw [if_pos (show (r.content_hash == h) = true by simp [hr])]
      by_cases ha : r.access_code = ac
      · rw [List.filter_cons_of_pos (by simp [ha]),
          List.filter_cons_of_pos (by simp [ha])]
        rw [List.length_cons, List.length_cons, ih]
      · rw [List.filter_cons_of_neg (by simp [ha]),
          List.filter_cons_of_neg (by simp [ha])]
        exact ih
    · rw [if_neg (show ¬ (r.content_hash == h) = true by simp [hr])]
      by_cases ha : r.access_code = ac
      · rw [List.filter_cons_of_pos (by simp [ha]),
          List.filter_cons_of_pos (by simp [ha])]
        rw [List.length_cons, List.length_cons, ih]
      · rw [List.filter_cons_of_neg (by simp [ha]),
          List.filter_cons_of_neg (by simp [ha])]
        exact ih

/-- C7: storing two structurally equal payload maps (equal as maps at
every nesting level, regardless of key construction order) for the same
owner returns the same id both times and leaves the owner's row count
unchanged: the canonical serialization sorts keys at every level, so
both payloads receive the same content hash and the second store only
refreshes `last_seen_at` in place. -/
theorem store_context_structEq_dedup :
    ∀ (db : RagDB) (ac ct1 ct2 : String) (p1 p2 : JVal) (t1 t2 : Nat),
      jwf p1 = true → jwf p2 = true → structEqB p1 p2 = true →
      (store_context (store_context db ac p1 ct1 t1).2 ac p2 ct2 t2).1 =
        (store_context db ac p1 ct1 t1).1 ∧
      (ownerRows (store_context (store_context db ac p1 ct1 t1).2 ac p2 ct2 t2).2 ac).length =
        (ownerRows (store_context db ac p1 ct1 t1).2 ac).length := by
  intro db ac ct1 ct2 p1 p2 t1 t2 hw1 hw2 hse
  have hcanon : canon p1 = canon p2 := canon_eq_of_structEqB p1 p2 hw1 hw2 hse
  have hhash : generate_content_hash (dumps (canon p2)) =
      generate_content_hash (dumps (canon p1)) := by rw [hcanon]
  cases hfind : db.rows.find?
      (fun r => r.content_hash == generate_content_hash (dumps (canon p1))) with
  | some r0 =>
    have h1 := @store_context_eval_dedup db ac ct1 p1 t1 r0 hfind
    rw [h1]
    have hfind2 : ({ db with rows := db.rows.map (fun r =>
        if r.content_hash == generate_content_hash (dumps (canon p1)) then
          { r with timestamp := t1 } else r) } : RagDB).rows.find?
        (fun r => r.content_hash == generate_content_hash (dumps (canon p2))) =
        some (if r0.content_hash == generate_content_hash (dumps (canon p1)) then
          { r0 with timestamp := t1 } else r0) := by
      show (db.rows.map (fun r =>
        if r.content_hash == generate_content_hash (dumps (canon p1)) then
          { r with timestamp := t1 } else r)).find?
        (fun r => r.content_hash == generate_content_hash (dumps (canon p2))) = _
      rw [hhash, find?_touch, hfind]
      rfl
    have h2 := @store_context_eval_dedup _ ac ct2 p2 t2 _ hfind2
    rw [h2]
    have hid : (if r0.content_hash == generate_content_hash (dumps (canon p1)) then
        { r0 with timestamp := t1 } else r0).id = r0.id := by
      by_cases hc : r0.content_hash = generate_content_hash (dumps (canon p1)) <;>
        simp [hc]
    constructor
    · exact congrArg Option.some hid
    · unfold ownerRows
      exact ownerRows_map_touch _ _ _ _
  | none =>
    have h1 := @store_context_eval_fresh db ac ct1 p1 t1 hfind
    rw [h1]
    have hnone2 : (rag_enforce_memory_limits db ac).rows.find?
        (fun r => r.content_hash == generate_content_hash (dumps (canon p1))) = none := by
      rw [List.find?_eq_none]
      intro r hr
      exact List.find?_eq_none.mp hfind r ((enforce_rows_subset db ac).1 r hr)
    have hfind2 : (RagDB.mk ((rag_enforce_memory_limits db ac).rows ++
        [mkStoredRow (rag_enforce_memory_limits db ac).nextId ac p1 ct1 t1])
        ((rag_enforce_memory_limits db ac).nextId + 1)).rows.find?
        (fun r => r.content_hash == generate_content_hash (dumps (canon p2))) =
        some (mkStoredRow (rag_enforce_memory_limits db ac).nextId ac p1 ct1 t1) := by
      show ((rag_enforce_memory_limits db ac).rows ++
        [mkStoredRow (rag_enforce_memory_limits db ac).nextId ac p1 ct1 t1]).find?
        (fun r => r.content_hash == generate_content_hash (dumps (canon p2))) = _
      rw [hhash, List.find?_append, hnone2]
      simp [List.find?, mkStoredRow]
    have h2 := @store_context_eval_dedup _ ac ct2 p2 t2 _ hfind2
    rw [h2]
    constructor
    · rfl
    · unfold ownerRows
      exact ownerRows_map_touch _ _ _ _

/-- Witness for C7: the same nested payload with keys constructed in
two different orders, stored twice into the empty store. -/
theorem store_context_structEq_dedup_witness :
    (store_context (store_context emptyRag "owner"
        (.jobj [("b", .jnum 1), ("a", .jobj [("y", .jnum 2), ("x", .jnum 3)])])
        "general" 0).2 "owner"
      (.jobj [("a", .jobj [("x", .jnum 3), ("y", .jnum 2)]), ("b", .jnum 1)])
      "general" 1).1 =
      (store_context emptyRag "owner"
        (.jobj [("b", .jnum 1), ("a", .jobj [("y", .jnum 2), ("x", .jnum 3)])])
        "general" 0).1 ∧
    (ownerRows (store_context (store_context emptyRag "owner"
        (.jobj [("b", .jnum 1), ("a", .jobj [("y", .jnum 2), ("x", .jnum 3)])])
        "general" 0).2 "owner"
      (.jobj [("a", .jobj [("x", .jnum 3), ("y", .jnum 2)]), ("b", .jnum 1)])
      "general" 1).2 "owner").length =
      (ownerRows (store_context emptyRag "owner"
        (.jobj [("b", .jnum 1), ("a", .jobj [("y", .jnum 2), ("x", .jnum 3)])])
        "general" 0).2 "owner").length :=
  store_context_structEq_dedup emptyRag "owner" "general" "general"
    (.jobj [("b", .jnum 1), ("a", .jobj [("y", .jnum 2), ("x", .jnum 3)])])
    (.jobj [("a", .jobj [("x", .jnum 3), ("y", .jnum 2)]), ("b", .jnum 1)])
    0 1 (by decide) (by decide) (by decide)

theorem rag_enforce_noop (db : RagDB) (ac : String)
    (h1 : db.rows.length ≤ max_total_contexts)
    (h2 : (db.rows.filter (fun r => r.access_code == ac)).length ≤ max_contexts_per_user) :
    rag_enforce_memory_limits db ac = db := by
  have ht : rag_enforce_total db = db := by
    unfold rag_enforce_total
    rw [if_neg (by omega)]
  unfold rag_enforce_memory_limits
  rw [ht]
  unfold rag_enforce_user
  rw [if_neg (by omega)]

theorem aString_length (i : Nat) : (aString i).length = i := by
  simp [aString, String.length]

theorem aString_injective : Function.Injective aString := by
  intro i j h
  have := congrArg String.length h
  rwa [aString_length, aString_length] at this

theorem concat_escape_aString (i : Nat) :
    concatStrings ((List.replicate i 'a').map jsonEscapeChar) = aString i := by
  induction i with
  | zero => rfl
  | succ n ih =>
    rw [List.replicate_succ, List.map_cons, concatStrings, ih]
    rfl

theorem hash_aString (i : Nat) :
    generate_content_hash (dumps (canon (.jstr (aString i)))) =
      "\"" ++ aString i ++ "\"" := by
  show jsonQuote (aString i) = _
  unfold jsonQuote
  rw [show (aString i).data = List.replicate i 'a' from rfl, concat_escape_aString]

theorem quote_aString_injective :
    Function.Injective (fun i => "\"" ++ aString i ++ "\"") := by
  intro i j h
  have := congrArg String.length h
  simp only [String.length_append, aString_length] at this
  omega

theorem expectedRows_length : ∀ (calls : List (String × JVal × Nat)) (s : Nat),
    (expectedRows s calls).length = calls.length := by
  intro calls
  induction calls with
  | nil => intro s; rfl
  | cons c cs ih =>
    intro s
    rw [expectedRows, List.length_cons, List.length_cons, ih]

theorem expectedRows_map_id : ∀ (calls : List (String × JVal × Nat)) (s : Nat),
    (expectedRows s calls).map (fun r => r.id) = List.range' s calls.length := by
  intro calls
  induction calls with
  | nil => intro s; rfl
  | cons c cs ih =>
    intro s
    rw [expectedRows, List.map_cons, List.length_cons, List.range'_succ, ih]
    rfl

theorem expectedRows_map_hash : ∀ (calls : List (String × JVal × Nat)) (s : Nat),
    (expectedRows s calls).map (fun r => r.content_hash) =
      calls.map (fun c => generate_content_hash (dumps (canon c.2.1))) := by
  intro calls
  induction calls with
  | nil => intro s; rfl
  | cons c cs ih =>
    intro s
    rw [expectedRows, List.map_cons, List.map_cons, ih]
    rfl

theorem expectedRows_map_owner : ∀ (calls : List (String × JVal × Nat)) (s : Nat),
    (expectedRows s calls).map (fun r => r.access_code) = calls.map (fun c => c.1) := by
  intro calls
  induction calls with
  | nil => intro s; rfl
  | cons c cs ih =>
    intro s
    rw [expectedRows, List.map_cons, List.map_cons, ih]
    rfl

theorem expectedRows_timestamp_mem : ∀ (calls : List (String × JVal × Nat)) (s : Nat)
    (r : CtxRow), r ∈ expectedRows s calls → ∃ c ∈ calls, r.timestamp = c.2.2 := by
  intro calls
  induction calls with
  | nil =>
    intro s r hr
    simp [expectedRows] at hr
  | cons c cs ih =>
    intro s r hr
    rw [expectedRows] at hr
    rcases List.mem_cons.mp hr with rfl | hr2
    · exact ⟨c, List.mem_cons_self _ _, rfl⟩
    · obtain ⟨c', hc', ht⟩ := ih (s + 1) r hr2
      exact ⟨c', List.mem_cons_of_mem _ hc', ht⟩

theorem expectedRows_sorted : ∀ (calls : List (String × JVal × Nat)) (s : Nat),
    List.Pairwise (fun c1 c2 : String × JVal × Nat => c1.2.2 < c2.2.2) calls →
    List.Sorted ctxOldFirst (expectedRows s calls) := by
  intro calls
  induction calls with
  | nil => intro s _; exact List.sorted_nil
  | cons c cs ih =>
    intro s hp
    rw [expectedRows]
    rw [List.sorted_cons]
    obtain ⟨hhead, htail⟩ := List.pairwise_cons.mp hp
    refine ⟨?_, ih (s + 1) htail⟩
    intro b hb
    obtain ⟨c', hc', ht⟩ := expectedRows_timestamp_mem cs (s + 1) b hb
    left
    show (mkStoredRow s c.1 c.2.1 "general" c.2.2).timestamp < b.timestamp
    rw [ht]
    exact hhead c' hc'

theorem storeMany_fresh_rows : ∀ (calls : List (String × JVal × Nat)) (db : RagDB),
    db.rows.length + calls.length ≤ max_total_contexts + 1 →
    (∀ c ∈ calls, ∀ r ∈ db.rows,
      ¬ r.content_hash = generate_content_hash (dumps (canon c.2.1))) →
    ((calls.map (fun c => generate_content_hash (dumps (canon c.2.1)))).Nodup) →
    (∀ c ∈ calls, ∀ r ∈ db.rows, ¬ r.access_code = c.1) →
    ((calls.map (fun c => c.1)).Nodup) →
    (storeMany db calls).rows = db.rows ++ expectedRows db.nextId calls ∧
    (storeMany db calls).nextId = db.nextId + calls.length := by
  intro calls
  induction calls with
  | nil =>
    intro db _ _ _ _ _
    exact ⟨by simp [storeMany, expectedRows], by simp [storeMany]⟩
  | cons c cs ih =>
    intro db hlen hfresh hnodup howner hwnodup
    have hfind : db.rows.find?
        (fun r => r.content_hash == generate_content_hash (dumps (canon c.2.1))) = none := by
      rw [List.find?_eq_none]
      intro r hr
      simpa using hfresh c (List.mem_cons_self _ _) r hr
    have hnoop : rag_enforce_memory_limits db c.1 = db := by
      apply rag_enforce_noop
      · rw [List.length_cons] at hlen
        omega
      · have hnilf : db.rows.filter (fun r => r.access_code == c.1) = [] := by
          rw [List.filter_eq_nil_iff]
          intro r hr
          simpa using howner c (List.mem_cons_self _ _) r hr
        rw [hnilf]
        simp [max_contexts_per_user]
    have hstep := @store_context_eval_fresh db c.1 "general" c.2.1 c.2.2 hfind
    rw [hnoop] at hstep
    have hsm : storeMany db (c :: cs) =
        storeMany (RagDB.mk
          (db.rows ++ [mkStoredRow db.nextId c.1 c.2.1 "general" c.2.2])
          (db.nextId + 1)) cs := by
      unfold storeMany
      rw [List.foldl_cons]
      rw [hstep]
    rw [hsm]
    have hlen2 : (RagDB.mk
        (db.rows ++ [mkStoredRow db.nextId c.1 c.2.1 "general" c.2.2])
        (db.nextId + 1)).rows.length + cs.length ≤ max_total_contexts + 1 := by
      rw [List.length_cons] at hlen
      simp only [List.length_append, List.length_cons, List.length_nil]
      omega
    have hmapcons :
        (List.map (fun c => generate_content_hash (dumps (canon c.2.1))) (c :: cs)).Nodup →
        generate_content_hash (dumps (canon c.2.1)) ∉
          cs.map (fun c => generate_content_hash (dumps (canon c.2.1))) ∧
        (cs.map (fun c => generate_content_hash (dumps (canon c.2.1)))).Nodup := by
      intro h
      rw [List.map_cons] at h
      exact List.nodup_cons.mp h
    have hwcons : (List.map (fun c => c.1) (c :: cs)).Nodup →
        c.1 ∉ cs.map (fun c => c.1) ∧ (cs.map (fun c => c.1)).Nodup := by
      intro h
      rw [List.map_cons] at h
      exact List.nodup_cons.mp h
    have hfresh2 : ∀ c' ∈ cs, ∀ r ∈ (RagDB.mk
        (db.rows ++ [mkStoredRow db.nextId c.1 c.2.1 "general" c.2.2])
        (db.nextId + 1)).rows,
        ¬ r.content_hash = generate_content_hash (dumps (canon c'.2.1)) := by
      intro c' hc' r hr
      rcases List.mem_append.mp hr with hr1 | hr2
      · exact hfresh c' (List.mem_cons_of_mem _ hc') r hr1
      · have hre : r = mkStoredRow db.nextId c.1 c.2.1 "general" c.2.2 := by
          simpa using hr2
        subst hre
        intro hcon
        apply (hmapcons hnodup).1
        rw [show (mkStoredRow db.nextId c.1 c.2.1 "general" c.2.2).content_hash =
          generate_content_hash (dumps (canon c.2.1)) from rfl] at hcon
        rw [hcon]
        exact List.mem_map.mpr ⟨c', hc', rfl⟩
    have howner2 : ∀ c' ∈ cs, ∀ r ∈ (RagDB.mk
        (db.rows ++ [mkStoredRow db.nextId c.1 c.2.1 "general" c.2.2])
        (db.nextId + 1)).rows, ¬ r.access_code = c'.1 := by
      intro c' hc' r hr
      rcases List.mem_append.mp hr with hr1 | hr2
      · exact howner c' (List.mem_cons_of_mem _ hc') r hr1
      · have hre : r = mkStoredRow db.nextId c.1 c.2.1 "general" c.2.2 := by
          simpa using hr2
        subst hre
        intro hcon
        apply (hwcons hwnodup).1
        rw [show (mkStoredRow db.nextId c.1 c.2.1 "general" c.2.2).access_code = c.1
          from rfl] at hcon
        rw [hcon]
        exact List.mem_map.mpr ⟨c', hc', rfl⟩
    have ih2 := ih (RagDB.mk
        (db.rows ++ [mkStoredRow db.nextId c.1 c.2.1 "general" c.2.2])
        (db.nextId + 1)) hlen2 hfresh2 (hmapcons hnodup).2 howner2 (hwcons hwnodup).2
    constructor
    · rw [ih2.1]
      rw [expectedRows]
      simp [List.append_assoc]
    · rw [ih2.2]
      show db.nextId + 1 + cs.length = db.nextId + (c :: cs).length
      rw [List.length_cons]
      omega

theorem calls201_length : calls201.length = 201 := by
  rw [calls201, List.length_map, List.length_range]

theorem calls201_cons :
    calls201 = ragCall 0 :: ((List.range 200).map Nat.succ).map ragCall := by
  rw [calls201,
    show List.range 201 = 0 :: (List.range 200).map Nat.succ from List.range_succ_eq_map 200,
    List.map_cons]

theorem calls201_pairwise :
    List.Pairwise (fun c1 c2 : String × JVal × Nat => c1.2.2 < c2.2.2) calls201 := by
  rw [calls201, List.pairwise_map]
  exact List.pairwise_lt_range 201

theorem calls201_hash_list :
    calls201.map (fun c => generate_content_hash (dumps (canon c.2.1))) =
      (List.range 201).map (fun i => "\"" ++ aString i ++ "\"") := by
  rw [calls201, List.map_map]
  apply List.map_congr_left
  intro i _
  exact hash_aString i

theorem calls201_hash_nodup :
    (calls201.map (fun c => generate_content_hash (dumps (canon c.2.1)))).Nodup := by
  rw [calls201_hash_list]
  exact (List.nodup_range 201).map quote_aString_injective

theorem calls201_owner_list : calls201.map (fun c => c.1) = (List.range 201).map aString := by
  rw [calls201, List.map_map]
  rfl

theorem calls201_owner_nodup : (calls201.map (fun c => c.1)).Nodup := by
  rw [calls201_owner_list]
  exact (List.nodup_range 201).map aString_injective

theorem ragFull_spec : ragFull.rows = expectedRows 1 calls201 ∧ ragFull.nextId = 202 := by
  have h := storeMany_fresh_rows calls201 emptyRag
    (by rw [calls201_length]; decide)
    (by intro c _ r hr; simp [emptyRag] at hr)
    calls201_hash_nodup
    (by intro c _ r hr; simp [emptyRag] at hr)
    calls201_owner_nodup
  constructor
  · rw [show ragFull = storeMany emptyRag calls201 from rfl, h.1]
    simp [emptyRag]
  · rw [show ragFull = storeMany emptyRag calls201 from rfl, h.2, calls201_length]
    rfl

theorem ragdb_eta (db : RagDB) : db = RagDB.mk db.rows db.nextId := rfl

theorem rag_enforce_user_noop (db : RagDB) (ac : String)
    (h : (db.rows.filter (fun r => r.access_code == ac)).length ≤ max_contexts_per_user) :
    rag_enforce_user db ac = db := by
  unfold rag_enforce_user
  rw [if_neg (by omega)]

theorem rag_enforce_total_one_over (r0 : CtxRow) (rest : List CtxRow) (n : Nat)
    (hlen : rest.length = max_total_contexts)
    (hsorted : List.Sorted ctxOldFirst (r0 :: rest))
    (hfresh : ∀ r ∈ rest, r.id ≠ r0.id) :
    rag_enforce_total (RagDB.mk (r0 :: rest) n) = RagDB.mk rest n := by
  have hsort_eq : List.insertionSort ctxOldFirst (r0 :: rest) = r0 :: rest :=
    List.Sorted.insertionSort_eq hsorted
  have hgt : (RagDB.mk (r0 :: rest) n).rows.length > max_total_contexts := by
    show (r0 :: rest).length > max_total_contexts
    rw [List.length_cons, hlen]
    omega
  unfold rag_enforce_total
  rw [if_pos hgt]
  show RagDB.mk ((r0 :: rest).filter (fun r =>
      !((((List.insertionSort ctxOldFirst (r0 :: rest)).take
        ((r0 :: rest).length - max_total_contexts)).map (fun r => r.id)).contains r.id))) n =
    RagDB.mk rest n
  rw [hsort_eq, List.length_cons, hlen, Nat.add_sub_cancel_left]
  rw [show (r0 :: rest).take 1 = [r0] from rfl]
  congr 1
  rw [List.filter_cons_of_neg (by simp)]
  exact List.filter_eq_self.mpr (fun r hr => by simp [hfresh r hr])

/-- C2 (counterexample): with `max_total_contexts = 200`, performing 201
store calls with pairwise distinct payloads (and distinct owners) on an
initially empty store leaves 201 rows, not 200: `_enforce_memory_limits`
runs before the insert and only deletes when the pre-insert count already
exceeds the cap, so the 201st call sees only 200 rows and evicts
nothing. -/
theorem rag_capacity_201_rows_after_201_stores :
    ragFull.rows.length = 201 ∧ ¬ ragFull.rows.length = 200 := by
  have h : ragFull.rows.length = 201 := by
    rw [ragFull_spec.1, expectedRows_length, calls201_length]
  exact ⟨h, by rw [h]; decide⟩

/-- C2 (amended): the store can transiently hold `max_total_contexts + 1`
rows.  201 distinct store calls on an empty store leave 201 rows; the row
with id 1 is then the one with the (strictly) oldest `last_seen_at`; and
the next (202nd, again fresh) store call evicts exactly that oldest row
before inserting, leaving the 200 younger original rows (ids 2..201) plus
the newly inserted row (id 202) — 201 rows again, not 200. -/
theorem rag_capacity_eviction_on_next_store :
    ragFull.rows.length = max_total_contexts + 1 ∧
    (∃ rm ∈ ragFull.rows, rm.id = 1 ∧ ∀ r ∈ ragFull.rows, rm.timestamp ≤ r.timestamp) ∧
    (store_context ragFull call202.1 call202.2.1 "general" call202.2.2).2.rows.map
      (fun r => r.id) = List.range' 2 200 ++ [202] ∧
    (store_context ragFull call202.1 call202.2.1 "general" call202.2.2).2.rows.length =
      max_total_contexts + 1 := by
  have hrows2 : ragFull.rows =
      mkStoredRow 1 (ragCall 0).1 (ragCall 0).2.1 "general" (ragCall 0).2.2 ::
        expectedRows 2 (((List.range 200).map Nat.succ).map ragCall) := by
    rw [ragFull_spec.1, calls201_cons, expectedRows]
  have hlenFull : ragFull.rows.length = 201 := by
    rw [ragFull_spec.1, expectedRows_length, calls201_length]
  have hcs2len : (((List.range 200).map Nat.succ).map ragCall).length = 200 := by
    rw [List.length_map, List.length_map, List.length_range]
  have hrestlen : (expectedRows 2 (((List.range 200).map Nat.succ).map ragCall)).length
      = 200 := by
    rw [expectedRows_length, hcs2len]
  have hrestid : (expectedRows 2 (((List.range 200).map Nat.succ).map ragCall)).map
      (fun r => r.id) = List.range' 2 200 := by
    rw [expectedRows_map_id, hcs2len]
  have hrestid1 : ∀ r ∈ expectedRows 2 (((List.range 200).map Nat.succ).map ragCall),
      r.id ≠ 1 := by
    intro r hr heq
    have hmem : r.id ∈ (expectedRows 2 (((List.range 200).map Nat.succ).map ragCall)).map
        (fun r => r.id) := List.mem_map.mpr ⟨r, hr, rfl⟩
    rw [hrestid, heq] at hmem
    exact absurd hmem (by decide)
  have hownerlist : (expectedRows 2 (((List.range 200).map Nat.succ).map ragCall)).map
      (fun r => r.access_code) = ((List.range 200).map Nat.succ).map aString := by
    rw [expectedRows_map_owner, List.map_map, List.map_map]
    rfl
  have hrestowner : ∀ r ∈ expectedRows 2 (((List.range 200).map Nat.succ).map ragCall),
      r.access_code ≠ aString 201 := by
    intro r hr hcon
    have hmem : r.access_code ∈
        (expectedRows 2 (((List.range 200).map Nat.succ).map ragCall)).map
          (fun r => r.access_code) := List.mem_map.mpr ⟨r, hr, rfl⟩
    rw [hownerlist, List.map_map] at hmem
    obtain ⟨i, hi, heq⟩ := List.mem_map.mp hmem
    have h2 : aString (Nat.succ i) = aString 201 := heq.trans hcon
    have h3 := aString_injective h2
    have hlt : i < 200 := List.mem_range.mp hi
    omega
  have hfind : ragFull.rows.find?
      (fun r => r.content_hash == generate_content_hash (dumps (canon call202.2.1))) =
      none := by
    rw [List.find?_eq_none]
    intro r hr
    have hmem : r.content_hash ∈ ragFull.rows.map (fun r => r.content_hash) :=
      List.mem_map.mpr ⟨r, hr, rfl⟩
    rw [ragFull_spec.1, expectedRows_map_hash, calls201_hash_list] at hmem
    obtain ⟨i, hi, heq⟩ := List.mem_map.mp hmem
    intro hcon
    simp only [beq_iff_eq] at hcon
    have h2 : i = 201 := quote_aString_injective (heq.trans (hcon.trans (hash_aString 201)))
    have hlt : i < 201 := List.mem_range.mp hi
    omega
  have hfullEq : ragFull = RagDB.mk
      (mkStoredRow 1 (ragCall 0).1 (ragCall 0).2.1 "general" (ragCall 0).2.2 ::
        expectedRows 2 (((List.range 200).map Nat.succ).map ragCall)) 202 := by
    have h2 := ragFull_spec.2
    have hfe : RagDB.mk ragFull.rows ragFull.nextId = RagDB.mk
        (mkStoredRow 1 (ragCall 0).1 (ragCall 0).2.1 "general" (ragCall 0).2.2 ::
          expectedRows 2 (((List.range 200).map Nat.succ).map ragCall)) 202 := by
      rw [hrows2, h2]
    exact (ragdb_eta ragFull).trans hfe
  have hsorted : List.Sorted ctxOldFirst
      (mkStoredRow 1 (ragCall 0).1 (ragCall 0).2.1 "general" (ragCall 0).2.2 ::
        expectedRows 2 (((List.range 200).map Nat.succ).map ragCall)) := by
    have h := expectedRows_sorted calls201 1 calls201_pairwise
    rw [calls201_cons, expectedRows] at h
    exact h
  have htot : rag_enforce_total ragFull = RagDB.mk
      (expectedRows 2 (((List.range 200).map Nat.succ).map ragCall)) 202 := by
    rw [hfullEq]
    exact rag_enforce_total_one_over _ _ 202 hrestlen hsorted (fun r hr => hrestid1 r hr)
  have hfilter : (expectedRows 2 (((List.range 200).map Nat.succ).map ragCall)).filter
      (fun r => r.access_code == call202.1) = [] := by
    rw [List.filter_eq_nil_iff]
    intro r hr
    show ¬ (r.access_code == aString 201) = true
    simp [hrestowner r hr]
  have henf : rag_enforce_memory_limits ragFull call202.1 = RagDB.mk
      (expectedRows 2 (((List.range 200).map Nat.succ).map ragCall)) 202 := by
    show rag_enforce_user (rag_enforce_total ragFull) call202.1 = _
    rw [htot]
    apply rag_enforce_user_noop
    show ((expectedRows 2 (((List.range 200).map Nat.succ).map ragCall)).filter
      (fun r => r.access_code == call202.1)).length ≤ max_contexts_per_user
    rw [hfilter]
    decide
  have hstep := @store_context_eval_fresh ragFull call202.1 "general" call202.2.1
    call202.2.2 hfind
  have hafter : (store_context ragFull call202.1 call202.2.1 "general" call202.2.2).2 =
      RagDB.mk (expectedRows 2 (((List.range 200).map Nat.succ).map ragCall) ++
        [mkStoredRow 202 call202.1 call202.2.1 "general" call202.2.2]) 203 := by
    rw [hstep, henf]
  refine ⟨hlenFull, ?_, ?_, ?_⟩
  · refine ⟨mkStoredRow 1 (ragCall 0).1 (ragCall 0).2.1 "general" (ragCall 0).2.2,
      ?_, rfl, ?_⟩
    · rw [hrows2]
      exact List.mem_cons_self _ _
    · intro r _
      exact Nat.zero_le r.timestamp
  · rw [hafter]
    show (expectedRows 2 (((List.range 200).map Nat.succ).map ragCall) ++
        [mkStoredRow 202 call202.1 call202.2.1 "general" call202.2.2]).map
      (fun r => r.id) = List.range' 2 200 ++ [202]
    rw [List.map_append, hrestid]
    rfl
  · rw [hafter]
    show (expectedRows 2 (((List.range 200).map Nat.succ).map ragCall) ++
        [mkStoredRow 202 call202.1 call202.2.1 "general" call202.2.2]).length =
      max_total_contexts + 1
    rw [List.length_append, hrestlen]
    rfl

theorem insertionSort_head_min (l : List ConvRow) (m H : ConvRow) (T : List ConvRow)
    (hL : List.insertionSort convOldFirst l = H :: T)
    (hm : m ∈ l)
    (hmin : ∀ r ∈ l, r ≠ m → m.last_updated < r.last_updated) : H = m := by
  have hperm := List.perm_insertionSort convOldFirst l
  have hsort := List.sorted_insertionSort convOldFirst l
  rw [hL] at hperm hsort
  by_cases hHm : H = m
  · exact hHm
  · exfalso
    have hHl : H ∈ l := hperm.subset (List.mem_cons_self _ _)
    have hmL : m ∈ H :: T := hperm.mem_iff.mpr hm
    have hmT : m ∈ T := by
      rcases List.mem_cons.mp hmL with h | h
      · exact absurd h.symm hHm
      · exact h
    have hR : convOldFirst H m := (List.sorted_cons.mp hsort).1 m hmT
    have hlt : m.last_updated < H.last_updated := hmin H hHl hHm
    unfold convOldFirst at hR
    omega

theorem length_filter_drop_one {α : Type} (p : α → Bool) (l : List α) (m : α)
    (hnodup : l.Nodup) (hm : m ∈ l) (hp : p m = false)
    (ho : ∀ r ∈ l, r ≠ m → p r = true) :
    (l.filter p).length + 1 = l.length := by
  induction l with
  | nil => cases hm
  | cons a rest ih =>
    rcases List.mem_cons.mp hm with rfl | hmr
    · rw [List.filter_cons_of_neg (by simp [hp])]
      have hnm : m ∉ rest := (List.nodup_cons.mp hnodup).1
      have hself : rest.filter p = rest := List.filter_eq_self.mpr (fun r hr =>
        ho r (List.mem_cons_of_mem _ hr) (fun heq => hnm (heq ▸ hr)))
      rw [hself, List.length_cons]
    · have hanem : a ≠ m := fun h => (List.nodup_cons.mp hnodup).1 (h ▸ hmr)
      rw [List.filter_cons_of_pos (ho a (List.mem_cons_self _ _) hanem)]
      rw [List.length_cons, List.length_cons]
      rw [ih (List.nodup_cons.mp hnodup).2 hmr
        (fun r hr hne => ho r (List.mem_cons_of_mem _ hr) hne)]

theorem filter_active_map_deactivate (l : List ConvRow) (doomed : List String)
    (ac : String) :
    (l.map (fun c => if doomed.contains c.conversation_id then
        { c with is_active := false } else c)).filter
      (fun c => c.access_code == ac && c.is_active) =
    (l.filter (fun c => c.access_code == ac && c.is_active)).filter
      (fun c => !(doomed.contains c.conversation_id)) := by
  induction l with
  | nil => rfl
  | cons c rest ih =>
    rw [List.map_cons]
    by_cases hd : doomed.contains c.conversation_id
    · rw [if_pos hd]
      rw [@List.filter_cons_of_neg ConvRow
        (fun c => c.access_code == ac && c.is_active)
        { c with is_active := false } _ (by simp)]
      by_cases hp : (c.access_code == ac && c.is_active) = true
      · rw [@List.filter_cons_of_pos ConvRow
          (fun c => c.access_code == ac && c.is_active) c rest hp]
        rw [@List.filter_cons_of_neg ConvRow
          (fun c => !(doomed.contains c.conversation_id)) c _ (by simp at hd ⊢; exact hd)]
        exact ih
      · rw [@List.filter_cons_of_neg ConvRow
          (fun c => c.access_code == ac && c.is_active) c rest hp]
        exact ih
    · rw [if_neg hd]
      by_cases hp : (c.access_code == ac && c.is_active) = true
      · rw [@List.filter_cons_of_pos ConvRow
          (fun c => c.access_code == ac && c.is_active) c _ hp]
        rw [@List.filter_cons_of_pos ConvRow
          (fun c => c.access_code == ac && c.is_active) c rest hp]
        rw [@List.filter_cons_of_pos ConvRow
          (fun c => !(doomed.contains c.conversation_id)) c _ (by simp at hd ⊢; exact hd)]
        rw [ih]
      · rw [@List.filter_cons_of_neg ConvRow
          (fun c => c.access_code == ac && c.is_active) c _ hp]
        rw [@List.filter_cons_of_neg ConvRow
          (fun c => c.access_code == ac && c.is_active) c rest hp]
        exact ih

theorem enforce_memory_limits_eval (db : ConvDB) (ac : String)
    (h : (activeConvs db ac).length > max_conversations_per_user) :
    enforce_memory_limits db ac =
      { db with
        messages := db.messages.filter (fun m =>
          !((((List.insertionSort convOldFirst (activeConvs db ac)).take
            ((activeConvs db ac).length - max_conversations_per_user)).map
            (fun c => c.conversation_id)).contains m.conversation_id)),
        conversations := db.conversations.map (fun c =>
          if (((List.insertionSort convOldFirst (activeConvs db ac)).take
            ((activeConvs db ac).length - max_conversations_per_user)).map
            (fun c => c.conversation_id)).contains c.conversation_id then
            { c with is_active := false }
          else c) } := by
  simp only [enforce_memory_limits]
  rw [if_pos h]

/-- C8: starting an 11th conversation for an owner who already has
`max_conversations_per_user` (10) active conversations (with a fresh
conversation id, the strictly oldest active conversation `m` by
`last_updated`, and a current instant newer than every stored row)
returns the new id; afterwards the owner again has exactly 10 active
conversations; every message row of the evicted conversation `m` is
hard-deleted while every message of other conversations survives; and
`m`'s conversation record is still present in the table, now with
`is_active = false`, so a lookup by its id still finds it. -/
theorem start_conversation_11th_evicts_oldest (db : ConvDB) (ac : String) (now : Nat)
    (cid : String) (m : ConvRow)
    (hwf : ConvWF db)
    (hact : (activeConvs db ac).length = max_conversations_per_user)
    (hm : m ∈ activeConvs db ac)
    (hmin : ∀ r ∈ activeConvs db ac, r ≠ m → m.last_updated < r.last_updated)
    (hnow : ∀ r ∈ db.conversations, r.last_updated < now)
    (hfresh : ∀ r ∈ db.conversations, r.conversation_id ≠ cid) :
    (start_conversation db ac none now cid).1 = some cid ∧
    (activeConvs (start_conversation db ac none now cid).2 ac).length =
      max_conversations_per_user ∧
    (start_conversation db ac none now cid).2.messages.filter
      (fun msg => msg.conversation_id == m.conversation_id) = [] ∧
    (∀ msg ∈ db.messages, msg.conversation_id ≠ m.conversation_id →
      msg ∈ (start_conversation db ac none now cid).2.messages) ∧
    { m with is_active := false } ∈
      (start_conversation db ac none now cid).2.conversations := by
  have hany : ¬ (db.conversations.any (fun c => c.conversation_id == cid)) = true := by
    intro h
    obtain ⟨r, hr, hp⟩ := List.any_eq_true.mp h
    exact hfresh r hr (by simpa using hp)
  have hstart : start_conversation db ac none now cid =
      (some cid, enforce_memory_limits (startInserted db ac cid now) ac) := by
    unfold start_conversation
    rw [if_neg hany]
    rfl
  have hmdb : m ∈ db.conversations := List.mem_of_mem_filter hm
  have hacts1 : activeConvs (startInserted db ac cid now) ac =
      activeConvs db ac ++ [startRow db ac cid now] := by
    show (db.conversations ++ [startRow db ac cid now]).filter
        (fun c => c.access_code == ac && c.is_active) =
      db.conversations.filter (fun c => c.access_code == ac && c.is_active) ++
        [startRow db ac cid now]
    rw [List.filter_append]
    congr 1
    rw [List.filter_cons_of_pos (by simp [startRow])]
    rfl
  have hlen1 : (activeConvs (startInserted db ac cid now) ac).length =
      max_conversations_per_user + 1 := by
    rw [hacts1, List.length_append, hact]
    rfl
  have hgt1 : (activeConvs (startInserted db ac cid now) ac).length >
      max_conversations_per_user := by
    rw [hlen1]
    omega
  have hmin1 : ∀ r ∈ activeConvs (startInserted db ac cid now) ac,
      r ≠ m → m.last_updated < r.last_updated := by
    intro r hr hne
    rw [hacts1] at hr
    rcases List.mem_append.mp hr with h | h
    · exact hmin r h hne
    · have hre : r = startRow db ac cid now := by simpa using h
      rw [hre]
      show m.last_updated < now
      exact hnow m hmdb
  have hm1 : m ∈ activeConvs (startInserted db ac cid now) ac := by
    rw [hacts1]
    exact List.mem_append_left _ hm
  rcases hL : List.insertionSort convOldFirst (activeConvs (startInserted db ac cid now) ac)
    with _ | ⟨H, T⟩
  · exfalso
    have hperm := List.perm_insertionSort convOldFirst
      (activeConvs (startInserted db ac cid now) ac)
    rw [hL] at hperm
    have hlen0 := hperm.length_eq
    rw [hlen1] at hlen0
    simp at hlen0
  · have hHm : H = m :=
      insertionSort_head_min (activeConvs (startInserted db ac cid now) ac) m H T hL hm1 hmin1
    have htake : ((List.insertionSort convOldFirst
        (activeConvs (startInserted db ac cid now) ac)).take
        ((activeConvs (startInserted db ac cid now) ac).length -
          max_conversations_per_user)).map (fun c => c.conversation_id) =
        [m.conversation_id] := by
      rw [hL, hlen1, Nat.add_sub_cancel_left]
      rw [show (H :: T).take 1 = [H] from rfl, hHm]
      rfl
    have henf := enforce_memory_limits_eval (startInserted db ac cid now) ac hgt1
    rw [htake] at henf
    have hnodupconvs : db.conversations.Nodup := List.Nodup.of_map _ hwf
    have hnodupact : (activeConvs db ac).Nodup := List.Nodup.filter _ hnodupconvs
    refine ⟨?_, ?_, ?_, ?_, ?_⟩
    · rw [hstart]
    · rw [hstart]
      show (activeConvs (enforce_memory_limits (startInserted db ac cid now) ac) ac).length =
        max_conversations_per_user
      rw [henf]
      show ((((startInserted db ac cid now).conversations).map (fun c =>
          if [m.conversation_id].contains c.conversation_id then { c with is_active := false }
          else c)).filter (fun c => c.access_code == ac && c.is_active)).length =
        max_conversations_per_user
      rw [filter_active_map_deactivate]
      show ((activeConvs (startInserted db ac cid now) ac).filter
        (fun c => !([m.conversation_id].contains c.conversation_id))).length =
        max_conversations_per_user
      rw [hacts1, List.filter_append]
      have hcount := length_filter_drop_one
        (fun c => !([m.conversation_id].contains c.conversation_id))
        (activeConvs db ac) m hnodupact hm (by simp)
        (fun r hr hne => by
          have hrdb : r ∈ db.conversations := List.mem_of_mem_filter hr
          have hrm : r.conversation_id ≠ m.conversation_id := fun hcid =>
            hne (List.inj_on_of_nodup_map hwf hrdb hmdb hcid)
          simp [hrm])
      rw [hact] at hcount
      rw [List.length_append]
      rw [show (List.filter (fun c => !([m.conversation_id].contains c.conversation_id))
          [startRow db ac cid now]).length = 1 from by
        rw [List.filter_cons_of_pos (by simp [startRow, Ne.symm (hfresh m hmdb)])]
        rfl]
      exact hcount
    · rw [hstart]
      show ((enforce_memory_limits (startInserted db ac cid now) ac).messages.filter
        (fun msg => msg.conversation_id == m.conversation_id)) = []
      rw [henf]
      show (((startInserted db ac cid now).messages.filter (fun msg =>
        !([m.conversation_id].contains msg.conversation_id))).filter
          (fun msg => msg.conversation_id == m.conversation_id)) = []
      rw [List.filter_eq_nil_iff]
      intro msg hmsg
      have h2 := List.of_mem_filter hmsg
      simp at h2 ⊢
      exact h2
    · intro msg hmsg hne
      rw [hstart]
      show msg ∈ (enforce_memory_limits (startInserted db ac cid now) ac).messages
      rw [henf]
      show msg ∈ (startInserted db ac cid now).messages.filter (fun ms =>
        !([m.conversation_id].contains ms.conversation_id))
      exact List.mem_filter.mpr ⟨hmsg, by simp [hne]⟩
    · rw [hstart]
      show { m with is_active := false } ∈
        (enforce_memory_limits (startInserted db ac cid now) ac).conversations
      rw [henf]
      show { m with is_active := false } ∈
        ((startInserted db ac cid now).conversations).map (fun c =>
          if [m.conversation_id].contains c.conversation_id then { c with is_active := false }
          else c)
      refine List.mem_map.mpr ⟨m, ?_, ?_⟩
      · show m ∈ db.conversations ++ [startRow db ac cid now]
        exact List.mem_append_left _ hmdb
      · rw [if_pos (by simp)]

theorem start_conversation_11th_evicts_oldest_witness :
    (start_conversation convDB10 "owner" none 100 ("c" ++ aString 11)).1 =
      some ("c" ++ aString 11) ∧
    (activeConvs (start_conversation convDB10 "owner" none 100 ("c" ++ aString 11)).2
      "owner").length = max_conversations_per_user ∧
    (start_conversation convDB10 "owner" none 100 ("c" ++ aString 11)).2.messages.filter
      (fun msg => msg.conversation_id == (convRow10 0).conversation_id) = [] ∧
    (∀ msg ∈ convDB10.messages, msg.conversation_id ≠ (convRow10 0).conversation_id →
      msg ∈ (start_conversation convDB10 "owner" none 100 ("c" ++ aString 11)).2.messages) ∧
    { convRow10 0 with is_active := false } ∈
      (start_conversation convDB10 "owner" none 100 ("c" ++ aString 11)).2.conversations :=
  start_conversation_11th_evicts_oldest convDB10 "owner" 100 ("c" ++ aString 11)
    (convRow10 0) (by unfold ConvWF; decide) (by decide) (by decide) (by decide)
    (by decide) (by decide)
